import Mathlib

/-!
# Verification of the tradefury ingestion-and-reconciliation pipeline

A shallow embedding, over `List Char` strings and insertion-ordered
association lists (the model of JavaScript `Map`), of the core ingestion
pipeline of the repository:

* `normalizeItemName` (services/SharedStorageClient.ts, the `ItemNameIndex`
  module),
* `decodeHtmlEntities` (utils/html.ts),
* `extractTableBlock`, `parseNamedPriceDatabase`, `parseLegacyPriceDatabase`,
  `parsePricingHistoryData`, `convertRawHistoryToEntries`,
  `mapNamePricesToItemIds`, `mergeHistories` and the `AuctionatorDataService`
  operations `parse`, `mergeWithExisting`, `mergePreferRecent`
  (the current `AuctionatorDataService` module),
* the `ItemNameResolver` cache mutation `storeMapping`.

Modelling conventions, used throughout:

* JavaScript strings are `List Char`.  Lone UTF-16 surrogates are not
  representable (`String.fromCodePoint` of a surrogate is modelled as a
  decoding failure); the numbers flowing through the parsers are integers
  (the add-on dumps only carry integer copper amounts and integer relative
  time keys), so `Number(...)` on the strings the parsers feed it is
  modelled as exact integer parsing, `NaN` as `Option.none`.
* A JavaScript `Map` is an insertion-ordered association list with unique
  keys: `get` is `mget`, `set` is `mset` (update in place if the key is
  present, append otherwise), `forEach` is a fold over the list.
* `importedAt` strings on price-history entries are produced by
  `new Date(seconds * 1000).toISOString()`, an order-preserving injection
  from epoch seconds; they are modelled by the epoch seconds themselves
  (a `Nat`, the code clamps at 0).  The top-level `importedAt` of a parsed
  import, which `mergePreferRecent` re-parses and which may come from
  arbitrary persisted text, is modelled as `Option Int` (`none` = a string
  `new Date(...)` cannot parse, i.e. `getTime()` is `NaN`).
* `Array.prototype.sort` with the comparator
  `(a, b) => time a - time b` is a stable sort by the time key; it is
  modelled by a stable insertion sort.
-/

/-- The `Char` `\x7b` (left curly brace), named to keep table text readable. -/
def lbrace : Char := '\x7b'

/-- The `Char` `\x7d` (right curly brace). -/
def rbrace : Char := '\x7d'

/-- The double-quote character. -/
def dquote : Char := '\x22'

/-- JavaScript `\s` (and `String.prototype.trim`) white-space set:
tab, LF, VT, FF, CR, space, NBSP, and the Unicode space separators,
line/paragraph separators and ZWNBSP. -/
def isWs (c : Char) : Bool :=
  c.toNat = 9 || c.toNat = 10 || c.toNat = 11 || c.toNat = 12 || c.toNat = 13 ||
  c.toNat = 32 || c.toNat = 160 || c.toNat = 0x1680 ||
  (0x2000 ≤ c.toNat && c.toNat ≤ 0x200a) ||
  c.toNat = 0x2028 || c.toNat = 0x2029 || c.toNat = 0x202f ||
  c.toNat = 0x205f || c.toNat = 0x3000 || c.toNat = 0xfeff

/-- ASCII decimal digit. -/
def isDigit (c : Char) : Bool := 48 ≤ c.toNat && c.toNat ≤ 57

/-- `[0-9a-fA-F]`. -/
def isHexDigit (c : Char) : Bool :=
  isDigit c || (97 ≤ c.toNat && c.toNat ≤ 102) || (65 ≤ c.toNat && c.toNat ≤ 70)

/-- JavaScript `\w`: `[A-Za-z0-9_]`. -/
def isWordChar (c : Char) : Bool :=
  isDigit c || (97 ≤ c.toNat && c.toNat ≤ 122) || (65 ≤ c.toNat && c.toNat ≤ 90) ||
  c.toNat = 95

/-- `String.prototype.trim`: drop white-space from both ends. -/
def jsTrim (l : List Char) : List Char :=
  ((l.dropWhile isWs).reverse.dropWhile isWs).reverse

/-- Helper for `collapseWs`: `prevWs` records whether the previous character
was part of a white-space run already replaced by a single space. -/
def collapseWsAux : Bool → List Char → List Char
  | _, [] => []
  | prevWs, c :: rest =>
    if isWs c then
      if prevWs then collapseWsAux true rest
      else ' ' :: collapseWsAux true rest
    else c :: collapseWsAux false rest

/-- `replace(/\s+/g, ' ')`: collapse every maximal white-space run to `' '`. -/
def collapseWs (l : List Char) : List Char := collapseWsAux false l

/-- `replace(/\|c[0-9a-fA-F]{8}/g, '')`: single left-to-right pass removing
colour-code escapes; `fuel` only bounds the recursion (each step consumes at
least one character, so `fuel = length` is enough). -/
def stripColorAux : Nat → List Char → List Char
  | 0, l => l
  | _ + 1, [] => []
  | fuel + 1, c :: rest =>
    if c = '|' then
      match rest with
      | 'c' :: r2 =>
        if 8 ≤ r2.length ∧ (r2.take 8).all isHexDigit then
          stripColorAux fuel (r2.drop 8)
        else c :: stripColorAux fuel rest
      | _ => c :: stripColorAux fuel rest
    else c :: stripColorAux fuel rest

/-- `replace(/\|c[0-9a-fA-F]{8}/g, '')`. -/
def stripColor (l : List Char) : List Char := stripColorAux l.length l

/-- Single left-to-right pass of `replace(/\|r/g, '')`. -/
def stripRAux : Nat → List Char → List Char
  | 0, l => l
  | _ + 1, [] => []
  | fuel + 1, c :: rest =>
    if c = '|' then
      match rest with
      | 'r' :: r2 => stripRAux fuel r2
      | _ => c :: stripRAux fuel rest
    else c :: stripRAux fuel rest

/-- `replace(/\|r/g, '')`. -/
def stripRCodes (l : List Char) : List Char := stripRAux l.length l

/-- `normalizeItemName` (SharedStorageClient.ts lines 161-167): strip add-on
colour-code escapes, collapse white-space runs, trim, lower-case
(`Char.toLower` is the ASCII model of `String.prototype.toLowerCase`). -/
def normalizeItemName (l : List Char) : List Char :=
  (jsTrim (collapseWs (stripRCodes (stripColor l)))).map Char.toLower

example : normalizeItemName "  Frost   Lotus ".toList = "frost lotus".toList := by decide
example : normalizeItemName "|cff00ff00Frost Lotus|r".toList = "frost lotus".toList := by
  decide

/-- Value of a hex digit. -/
def hexVal (c : Char) : Nat :=
  if isDigit c then c.toNat - 48
  else if 97 ≤ c.toNat then c.toNat - 87
  else c.toNat - 55

/-- `Number.parseInt(s, 16)` on the all-hex-digit strings the entity decoder
feeds it: value of the maximal leading hex-digit run, `NaN` (`none`) if there
is none. -/
def parseIntHex (l : List Char) : Option Nat :=
  match l.takeWhile isHexDigit with
  | [] => none
  | run => some (run.foldl (fun acc c => acc * 16 + hexVal c) 0)

/-- `Number.parseInt(s, 10)`: value of the maximal leading decimal-digit run,
`NaN` (`none`) if there is none. -/
def parseIntDec (l : List Char) : Option Nat :=
  match l.takeWhile isDigit with
  | [] => none
  | run => some (run.foldl (fun acc c => acc * 10 + (c.toNat - 48)) 0)

/-- `String.fromCodePoint`, modelled on Unicode scalar values (a lone
surrogate, which JavaScript would produce, is not a `Char`; it is modelled as
a decoding failure). -/
def fromCodePoint (n : Nat) : Option Char :=
  if h : Nat.isValidChar n then some (Char.ofNatAux n h) else none

/-- The `NAMED_ENTITIES` table of utils/html.ts. -/
def namedEntity (entity : List Char) : Option Char :=
  if entity = "amp".toList then some '&'
  else if entity = "lt".toList then some '<'
  else if entity = "gt".toList then some '>'
  else if entity = "quot".toList then some dquote
  else if entity = "apos".toList then some '\x27'
  else if entity = "nbsp".toList then some '\xa0'
  else none

/-- `decodeEntity` of utils/html.ts: the replacement string for a matched
entity body, `none` when the entity cannot be decoded (the caller then keeps
the matched text verbatim). -/
def decodeEntity (entity : List Char) : Option (List Char) :=
  match entity with
  | '#' :: 'x' :: hex => (parseIntHex hex).bind fun n => (fromCodePoint n).map ([·])
  | '#' :: 'X' :: hex => (parseIntHex hex).bind fun n => (fromCodePoint n).map ([·])
  | '#' :: dec => (parseIntDec dec).bind fun n => (fromCodePoint n).map ([·])
  | _ => (namedEntity entity).map ([·])

/-- Match the regex alternation `(#x?[0-9a-fA-F]+|#\d+|\w+);` at the start of
`rest` (the text after a `&`): returns the captured entity body and the text
after the `;`.  The runs are maximal, which coincides with the regex
backtracking semantics because `;` is neither a hex digit nor a word
character. -/
def parseEntityAt (rest : List Char) : Option (List Char × List Char) :=
  match rest with
  | '#' :: r1 =>
    let hexAttempt :=
      match r1 with
      | 'x' :: r2 =>
        let run := r2.takeWhile isHexDigit
        if run ≠ [] ∧ (r2.drop run.length).head? = some ';' then
          some ('#' :: 'x' :: run, (r2.drop run.length).tail)
        else none
      | _ => none
    match hexAttempt with
    | some result => some result
    | none =>
      let run := r1.takeWhile isHexDigit
      if run ≠ [] ∧ (r1.drop run.length).head? = some ';' then
        some ('#' :: run, (r1.drop run.length).tail)
      else
        let run := r1.takeWhile isDigit
        if run ≠ [] ∧ (r1.drop run.length).head? = some ';' then
          some ('#' :: run, (r1.drop run.length).tail)
        else none
  | _ =>
    let run := rest.takeWhile isWordChar
    if run ≠ [] ∧ (rest.drop run.length).head? = some ';' then
      some (run, (rest.drop run.length).tail)
    else none

/-- One left-to-right pass of
`replace(/&(#x?[0-9a-fA-F]+|#\d+|\w+);/g, (match, entity) => decodeEntity(entity) ?? match)`;
`fuel = length` suffices since every step consumes at least one character. -/
def decodeHtmlAux : Nat → List Char → List Char
  | 0, l => l
  | _ + 1, [] => []
  | fuel + 1, c :: rest =>
    if c = '&' then
      match parseEntityAt rest with
      | some (entity, rest') =>
        ((decodeEntity entity).getD ('&' :: (entity ++ [';']))) ++ decodeHtmlAux fuel rest'
      | none => '&' :: decodeHtmlAux fuel rest
    else c :: decodeHtmlAux fuel rest

/-- `decodeHtmlEntities` of utils/html.ts. -/
def decodeHtmlEntities (l : List Char) : List Char := decodeHtmlAux l.length l

example : decodeHtmlEntities "Foo &amp; Bar".toList = "Foo & Bar".toList := by decide
example : decodeHtmlEntities "&#65;&#x42;&bogus;".toList = "AB&bogus;".toList := by decide

/-- `Map.prototype.get` on the association-list model of a JavaScript `Map`. -/
def mget {κ α : Type} [DecidableEq κ] : List (κ × α) → κ → Option α
  | [], _ => none
  | (k', v) :: rest, k => if k' = k then some v else mget rest k

/-- `Map.prototype.set`: update in place when the key is present (iteration
order preserved), append otherwise. -/
def mset {κ α : Type} [DecidableEq κ] : List (κ × α) → κ → α → List (κ × α)
  | [], k, v => [(k, v)]
  | (k', v') :: rest, k, v =>
    if k' = k then (k, v) :: rest else (k', v') :: mset rest k v

/-- The keys of an association list are pairwise distinct (every JavaScript
`Map` satisfies this by construction). -/
abbrev NodupKeys {κ α : Type} (m : List (κ × α)) : Prop := (m.map Prod.fst).Nodup

/-- `PriceHistoryEntry` of AuctionatorDataService.ts; `importedAt` is the
epoch-seconds value whose ISO string the code stores. -/
structure PriceHistoryEntry where
  price : Int
  importedAt : Nat
  source : List Char
deriving DecidableEq, Repr

/-- `RawHistoryRecord` of AuctionatorDataService.ts. -/
structure RawHistoryRecord where
  key : Nat
  totalPrice : Int
  quantity : Int
deriving DecidableEq, Repr

/-- `itemPrices` of `AuctionatorParsedData`: itemId to price history. -/
abbrev HistMap : Type := List (Nat × List PriceHistoryEntry)

/-- `AuctionatorParsedData`; `importedAt` is `none` when the stored string is
one `new Date(...)` cannot parse (`getTime()` is `NaN`). -/
structure AuctionatorParsedData where
  itemPrices : HistMap
  importedAt : Option Int
  source : List Char

/-- Stable insertion of `e` into a list sorted by `key` ascending: `e` goes in
front of the first element whose key is `≥ key e`, which is exactly where a
stable sort by `key` puts it. -/
def insertByKey {α : Type} (key : α → Nat) (e : α) : List α → List α
  | [] => [e]
  | x :: xs => if key e ≤ key x then e :: x :: xs else x :: insertByKey key e xs

/-- Stable sort by `key` ascending — the model of
`Array.prototype.sort((a, b) => key a - key b)` (stable per the ECMAScript
specification). -/
def sortByKey {α : Type} (key : α → Nat) : List α → List α
  | [] => []
  | e :: es => insertByKey key e (sortByKey key es)

/-- Sort price-history entries by timestamp, ascending; the model of
`sort((a, b) => new Date(a.importedAt).getTime() - new Date(b.importedAt).getTime())`. -/
def sortByTime (l : List PriceHistoryEntry) : List PriceHistoryEntry :=
  sortByKey (·.importedAt) l

/-- `arr.slice(-limit)`: the last `limit` elements — except that
`slice(-0) = slice(0)` returns the whole array. -/
def sliceLast {α : Type} (limit : Nat) (l : List α) : List α :=
  if limit = 0 then l else l.drop (l.length - limit)

/-- `content.indexOf(tok)`, returning the text after the first occurrence of
`tok` (`none` when `tok` does not occur). -/
def findTokenSuffix (tok : List Char) : List Char → Option (List Char)
  | [] => if tok.isPrefixOf ([] : List Char) then some [] else none
  | c :: rest =>
    if tok.isPrefixOf (c :: rest) then some ((c :: rest).drop tok.length)
    else findTokenSuffix tok rest

/-- The depth-balancing loop of `extractTableBlock`: starting at depth `d`,
consume characters (adjusting depth at braces) until the depth returns to
zero; `none` when the text ends first.  Returns the consumed characters,
closing brace included. -/
def scanBlock : List Char → Nat → Option (List Char)
  | _, 0 => some []
  | [], _ + 1 => none
  | c :: rest, d + 1 =>
    let d' := if c = lbrace then d + 2 else if c = rbrace then d else d + 1
    (scanBlock rest d').map (c :: ·)

/-- The start token `` `${tableName} = {` `` of `extractTableBlock`. -/
def tableToken (tableName : List Char) : List Char :=
  tableName ++ (' ' :: '=' :: ' ' :: [lbrace])

/-- `extractTableBlock` (AuctionatorDataService.ts): find the first
`"<name> = {"`, scan forward balancing braces until depth returns to zero,
and return the whole span (token included); `none` when the token never
occurs or the text ends at positive depth. -/
def extractTableBlock (content tableName : List Char) : Option (List Char) :=
  match findTokenSuffix (tableToken tableName) content with
  | none => none
  | some after => (scanBlock after 1).map (fun body => tableToken tableName ++ body)

example : extractTableBlock "x FOO = \x7b a \x7b b \x7d c \x7d y".toList "FOO".toList
    = some "FOO = \x7b a \x7b b \x7d c \x7d".toList := by decide
example : extractTableBlock "x FOO = \x7b a \x7b b \x7d".toList "FOO".toList = none := by
  decide

/-- `split(/\r?\n/)`: break at `"\r\n"` or `"\n"` (a lone `"\r"` is not a
separator). -/
def splitLines : List Char → List (List Char)
  | [] => [[]]
  | '\r' :: '\n' :: rest => [] :: splitLines rest
  | '\n' :: rest => [] :: splitLines rest
  | c :: rest =>
    match splitLines rest with
    | [] => [[c]]
    | h :: t => (c :: h) :: t

/-- ECMAScript line terminators, the characters `.` does not match. -/
def isLineTerm (c : Char) : Bool :=
  c = '\n' || c = '\r' || c.toNat = 0x2028 || c.toNat = 0x2029

/-- Value of a decimal-digit run. -/
def decRunVal (run : List Char) : Nat :=
  run.foldl (fun acc c => acc * 10 + (c.toNat - 48)) 0

/-- `extractBracketKeyValue` (AuctionatorDataService.ts): match
`/^\["([^"]+)"\]\s*=\s*(.+)$/` against a line, returning the key and the raw
value.  `.` does not match a line terminator, and when everything after the
`=` is white space the backtracking `\s*` yields its last character to `.+`;
both behaviours are reproduced (the latter is unreachable from the parsers,
which always pass trimmed lines). -/
def extractBracketKeyValue (line : List Char) : Option (List Char × List Char) :=
  match line with
  | '[' :: q :: rest =>
    if q ≠ dquote then none
    else
      let key := rest.takeWhile (fun c => c ≠ dquote)
      if key = [] then none
      else
        match rest.drop key.length with
        | _ :: ']' :: r2 =>
          match r2.dropWhile isWs with
          | '=' :: r4 =>
            let v := r4.dropWhile isWs
            if v ≠ [] then
              if v.any isLineTerm then none else some (key, v)
            else
              match r4.getLast? with
              | some c => if isLineTerm c then none else some (key, [c])
              | none => none
          | _ => none
        | _ => none
  | _ => none

/-- First match of `/(-?\d+)/` in a string, as an integer (`Number` of the
captured text is never `NaN`). -/
def firstIntMatch : List Char → Option Int
  | [] => none
  | c :: rest =>
    if isDigit c then some ((decRunVal ((c :: rest).takeWhile isDigit) : Int))
    else if c = '-' then
      match rest with
      | d :: _ =>
        if isDigit d then some (-(decRunVal (rest.takeWhile isDigit) : Int))
        else firstIntMatch rest
      | [] => none
    else firstIntMatch rest

example : extractBracketKeyValue "[\x22Frost Lotus\x22] = 500,".toList
    = some ("Frost Lotus".toList, "500,".toList) := by decide
example : firstIntMatch "abc-12x3".toList = some (-12) := by decide

/-- `HISTORY_LIMIT` of AuctionatorDataService.ts. -/
def HISTORY_LIMIT : Nat := 50

/-- The `prices.get / prices.set` minimum-keeping update of
`parseNamedPriceDatabase` and `mapNamePricesToItemIds`: store `price` under
`key` unless a smaller or equal price is already recorded. -/
def updateMin {κ : Type} [DecidableEq κ] (m : List (κ × Int)) (key : κ) (price : Int) :
    List (κ × Int) :=
  match mget m key with
  | none => mset m key price
  | some existing => if price < existing then mset m key price else m

/-- The per-line state of `parseNamedPriceDatabase`. -/
structure NamedPriceState where
  depth : Int
  currentRealm : Option (List Char)
  prices : List (List Char × Int)

/-- One iteration of the `parseNamedPriceDatabase` line loop. -/
def processNamedPriceLine (st : NamedPriceState) (rawLine : List Char) : NamedPriceState :=
  let line := jsTrim rawLine
  let openC : Int := rawLine.count lbrace
  let closeC : Int := rawLine.count rbrace
  if line = [] then
    let d := st.depth + openC - closeC
    let realm := if d < 2 then none else st.currentRealm
    { st with depth := if d < 0 then 0 else d, currentRealm := realm }
  else
    let st1 :=
      match extractBracketKeyValue line with
      | some (key, rawValue) =>
        if rawValue.head? = some lbrace then
          if st.depth = 1 then { st with currentRealm := some key } else st
        else if 2 ≤ st.depth ∧ st.currentRealm ≠ none then
          match firstIntMatch rawValue with
          | some price =>
            if 0 < price then
              { st with prices := updateMin st.prices (decodeHtmlEntities key) price }
            else st
          | none => st
        else st
      | none => st
    let d := st1.depth + openC - closeC
    let realm := if d < 2 then none else st1.currentRealm
    { st1 with depth := if d < 0 then 0 else d, currentRealm := realm }

/-- The initial state of the `parseNamedPriceDatabase` line loop. -/
def namedPriceInit : NamedPriceState := ⟨0, none, []⟩

/-- `parseNamedPriceDatabase` (AuctionatorDataService.ts): display name to
minimum observed positive price over a `realm -> (name -> price)` table
span. -/
def parseNamedPriceDatabase (tableBlock : List Char) : List (List Char × Int) :=
  ((splitLines tableBlock).foldl processNamedPriceLine namedPriceInit).prices

/-- The price observation a single line contributes in
`parseNamedPriceDatabase` (the `(decoded key, price)` pair passed to the
minimum-keeping update), if any: instrumentation of `processNamedPriceLine`
used to state the minimum-price policy. -/
def namedPriceLineObs (st : NamedPriceState) (rawLine : List Char) :
    List (List Char × Int) :=
  let line := jsTrim rawLine
  if line = [] then []
  else
    match extractBracketKeyValue line with
    | some (key, rawValue) =>
      if rawValue.head? = some lbrace then []
      else if 2 ≤ st.depth ∧ st.currentRealm ≠ none then
        match firstIntMatch rawValue with
        | some price =>
          if 0 < price then [(decodeHtmlEntities key, price)] else []
        | none => []
      else []
    | none => []

/-- All price observations contributed by a list of lines, starting from
state `st`. -/
def namedPriceObs (st : NamedPriceState) : List (List Char) → List (List Char × Int)
  | [] => []
  | l :: ls => namedPriceLineObs st l ++ namedPriceObs (processNamedPriceLine st l) ls

/-- Match one of the `PRICE_KEY_PATTERNS` bodies
`\["<lit>"\]\s*=\s*([\d]+)` at the current position. -/
def matchKeyNumAt (lit : List Char) (l : List Char) : Option Nat :=
  if lit.isPrefixOf l then
    match (l.drop lit.length).dropWhile isWs with
    | '=' :: r2 =>
      let run := (r2.dropWhile isWs).takeWhile isDigit
      if run = [] then none else some (decRunVal run)
    | _ => none
  else none

/-- Unanchored search for `\["<lit>"\]\s*=\s*([\d]+)`. -/
def searchKeyNum (lit : List Char) : List Char → Option Nat
  | [] => matchKeyNumAt lit []
  | c :: rest =>
    match matchKeyNumAt lit (c :: rest) with
    | some v => some v
    | none => searchKeyNum lit rest

/-- Match `\["H\d+"\]\s*=\s*([\d]+)` (the historical-spillover pattern) at
the current position. -/
def matchHKeyAt (l : List Char) : Option Nat :=
  match l with
  | '[' :: q :: 'H' :: r =>
    if q ≠ dquote then none
    else
      let run := r.takeWhile isDigit
      if run = [] then none
      else
        match r.drop run.length with
        | q2 :: ']' :: r2 =>
          if q2 ≠ dquote then none
          else
            match r2.dropWhile isWs with
            | '=' :: r3 =>
              let numRun := (r3.dropWhile isWs).takeWhile isDigit
              if numRun = [] then none else some (decRunVal numRun)
            | _ => none
        | _ => none
  | _ => none

/-- Unanchored search for the historical-spillover pattern. -/
def searchHKey : List Char → Option Nat
  | [] => none
  | c :: rest =>
    match matchHKeyAt (c :: rest) with
    | some v => some v
    | none => searchHKey rest

/-- The quoted literal `["<name>"]` as text. -/
def bracketKeyLit (name : List Char) : List Char :=
  '[' :: dquote :: (name ++ [dquote, ']'])

/-- `PRICE_KEY_PATTERNS`, tried in order; the first pattern that matches the
line wins (the `H\d+` spillover pattern last). -/
def legacyLinePrice (line : List Char) : Option Nat :=
  match searchKeyNum (bracketKeyLit "price".toList) line with
  | some v => some v
  | none =>
  match searchKeyNum (bracketKeyLit "mr".toList) line with
  | some v => some v
  | none =>
  match searchKeyNum (bracketKeyLit "minBuyout".toList) line with
  | some v => some v
  | none =>
  match searchKeyNum (bracketKeyLit "marketValue".toList) line with
  | some v => some v
  | none =>
  match searchKeyNum (bracketKeyLit "recent".toList) line with
  | some v => some v
  | none =>
  match searchKeyNum (bracketKeyLit "historical".toList) line with
  | some v => some v
  | none => searchHKey line

/-- Match `"(\d+):` (a quote, digits, a colon) at the current position. -/
def matchQuoteDigitsColonAt (l : List Char) : Option Nat :=
  match l with
  | q :: rest =>
    if q ≠ dquote then none
    else
      let run := rest.takeWhile isDigit
      if run ≠ [] ∧ (rest.drop run.length).head? = some ':' then some (decRunVal run)
      else none
  | [] => none

/-- Unanchored search for `"(\d+):`. -/
def searchQuoteDigitsColon : List Char → Option Nat
  | [] => none
  | c :: rest =>
    match matchQuoteDigitsColonAt (c :: rest) with
    | some v => some v
    | none => searchQuoteDigitsColon rest

/-- Match `\["is"\]\s*=\s*"(\d+):` (the legacy item-id marker) at the
current position. -/
def matchIsIdAt (l : List Char) : Option Nat :=
  if (bracketKeyLit "is".toList).isPrefixOf l then
    match (l.drop 6).dropWhile isWs with
    | '=' :: r2 => matchQuoteDigitsColonAt (r2.dropWhile isWs)
    | _ => none
  else none

/-- Unanchored search for the legacy item-id marker. -/
def searchIsId : List Char → Option Nat
  | [] => none
  | c :: rest =>
    match matchIsIdAt (c :: rest) with
    | some v => some v
    | none => searchIsId rest

/-- The accumulator of `parseLegacyPriceDatabase`. -/
structure LegacyState where
  currentItemId : Option Nat
  currentPrice : Option Nat
  prices : List (Nat × Int)

/-- `commitEntry` of `parseLegacyPriceDatabase`. -/
def legacyCommit (st : LegacyState) : LegacyState :=
  match st.currentItemId, st.currentPrice with
  | some id, some price => ⟨none, none, mset st.prices id (price : Int)⟩
  | _, _ => { st with currentItemId := none, currentPrice := none }

/-- One iteration of the `parseLegacyPriceDatabase` line loop. -/
def processLegacyLine (st : LegacyState) (rawLine : List Char) : LegacyState :=
  let line := jsTrim rawLine
  if line = [] then st
  else
    match searchIsId line with
    | some id =>
      let st1 :=
        match st.currentItemId, st.currentPrice with
        | some _, some _ => legacyCommit st
        | _, _ => st
      { st1 with currentItemId := some id }
    | none =>
      let st1 :=
        match legacyLinePrice line with
        | some v => if 0 < v then { st with currentPrice := some v } else st
        | none => st
      if [rbrace, ','].isPrefixOf line ∨ line = [rbrace] ∨
          line = (rbrace :: ", --".toList) then
        match st1.currentItemId, st1.currentPrice with
        | some _, some _ => legacyCommit st1
        | _, _ => { st1 with currentItemId := none, currentPrice := none }
      else st1

/-- `parseLegacyPriceDatabase` (AuctionatorDataService.ts): last-resort
line scanner for the oldest flat `["is"] / price-key` table layout. -/
def parseLegacyPriceDatabase (tableBlock : List Char) : List (Nat × Int) :=
  let final := (splitLines tableBlock).foldl processLegacyLine ⟨none, none, []⟩
  (match final.currentItemId, final.currentPrice with
   | some _, some _ => legacyCommit final
   | _, _ => final).prices

/-- `Number(string)` on the integer-literal strings the pricing-history
parser feeds it: trims, the empty string is `0`, an optionally signed
decimal-digit run is its value, anything else is `NaN` (`none`). -/
def jsNumber (l : List Char) : Option Int :=
  match jsTrim l with
  | [] => some 0
  | '-' :: ds => if ds ≠ [] ∧ ds.all isDigit then some (-(decRunVal ds : Int)) else none
  | '+' :: ds => if ds ≠ [] ∧ ds.all isDigit then some ((decRunVal ds : Int)) else none
  | ds => if ds.all isDigit then some ((decRunVal ds : Int)) else none

/-- Match `/^\["([^"]+)"\]\s*=\s*{\s*,?\s*$/` (the item-block opener of the
pricing-history table), returning the raw key. -/
def matchItemStart (line : List Char) : Option (List Char) :=
  match line with
  | '[' :: q :: rest =>
    if q ≠ dquote then none
    else
      let key := rest.takeWhile (fun c => c ≠ dquote)
      if key = [] then none
      else
        match rest.drop key.length with
        | _ :: ']' :: r2 =>
          match r2.dropWhile isWs with
          | '=' :: r3 =>
            match r3.dropWhile isWs with
            | b :: r4 =>
              if b ≠ lbrace then none
              else
                match r4.dropWhile isWs with
                | [] => some key
                | ',' :: r5 => if r5.dropWhile isWs = [] then some key else none
                | _ => none
            | [] => none
          | _ => none
        | _ => none
  | _ => none

/-- `split('--')[0]`: the text before the first `--`. -/
def beforeDashDash : List Char → List Char
  | [] => []
  | '-' :: '-' :: _ => []
  | c :: rest => c :: beforeDashDash rest

/-- `replace(/[},]$/, '')`: drop a single trailing `}` or `,`. -/
def stripTrailingCloser (l : List Char) : List Char :=
  match l.getLast? with
  | some c => if c = rbrace ∨ c = ',' then l.dropLast else l
  | none => l

/-- Match `/^"([^"]+)"/`: a leading double-quoted non-empty run. -/
def leadingQuoted (l : List Char) : Option (List Char) :=
  match l with
  | q :: rest =>
    if q ≠ dquote then none
    else
      let inner := rest.takeWhile (fun c => c ≠ dquote)
      if inner ≠ [] ∧ (rest.drop inner.length).head? = some dquote then some inner
      else none
  | [] => none

/-- `value.split(':')` restricted to the first two parts (the destructuring
`[pricePart, quantityPart]`; `quantityPart` is `none` when there is no
colon). -/
def colonParts (l : List Char) : List Char × Option (List Char) :=
  let p := l.takeWhile (fun c => c ≠ ':')
  if p.length = l.length then (p, none)
  else (p, some ((l.drop (p.length + 1)).takeWhile (fun c => c ≠ ':')))

/-- The result record of `parsePricingHistoryData`. -/
structure PricingHistoryParseResult where
  index : List (List Char × Nat)
  entriesByItemId : List (Nat × List RawHistoryRecord)
  maxKey : Option Nat

/-- The per-line state of `parsePricingHistoryData`. -/
structure PricingState where
  depth : Int
  currentItemName : Option (List Char)
  currentNormalizedName : Option (List Char)
  currentItemId : Option Nat
  pendingEntries : List RawHistoryRecord
  maxKey : Option Nat
  index : List (List Char × Nat)
  entriesByItemId : List (Nat × List RawHistoryRecord)

/-- `commitCurrent` of `parsePricingHistoryData`.  The guard
`if (currentNormalizedName && currentItemId !== null)` treats an empty
normalized name as falsy. -/
def pricingCommit (st : PricingState) : PricingState :=
  let st1 :=
    match st.currentNormalizedName, st.currentItemId with
    | some nn, some id =>
      if nn = [] then st
      else
        let entries :=
          if st.pendingEntries = [] then st.entriesByItemId
          else
            mset st.entriesByItemId id
              ((mget st.entriesByItemId id).getD [] ++ st.pendingEntries)
        { st with index := mset st.index nn id, entriesByItemId := entries }
    | _, _ => st
  { st1 with
      currentItemName := none
      currentNormalizedName := none
      currentItemId := none
      pendingEntries := [] }

/-- The numeric-keyed history-record handler of `parsePricingHistoryData`. -/
def pricingRecordStep (st : PricingState) (key : List Char) (rawValue : List Char) :
    PricingState :=
  let keyNumber := decRunVal key
  let sanitized := jsTrim (stripTrailingCloser (jsTrim (beforeDashDash rawValue)))
  match leadingQuoted sanitized with
  | some inner =>
    let parts := colonParts inner
    match jsNumber parts.1 with
    | some t =>
      if 0 < t then
        let q :=
          match jsNumber ((parts.2).getD ['1']) with
          | some q => if 0 < q then q else 1
          | none => 1
        let mk :=
          match st.maxKey with
          | none => some keyNumber
          | some m => if m < keyNumber then some keyNumber else some m
        { st with
            pendingEntries := st.pendingEntries ++ [⟨keyNumber, t, q⟩]
            maxKey := mk }
      else st
    | none => st
  | none => st

/-- The key/value handler of `parsePricingHistoryData` for lines inside an
item block. -/
def pricingKeyValueStep (st : PricingState) (line : List Char) : PricingState :=
  if st.currentItemName ≠ none then
    match extractBracketKeyValue line with
    | some (key, rawValue) =>
      if key = "is".toList then
        match searchQuoteDigitsColon rawValue with
        | some id =>
          let st' := { st with currentItemId := some id }
          match st.currentNormalizedName with
          | some nn => if nn = [] then st' else { st' with index := mset st'.index nn id }
          | none => st'
        | none => st
      else if key ≠ [] ∧ key.all isDigit then pricingRecordStep st key rawValue
      else st
    | none => st
  else st

/-- One iteration of the `parsePricingHistoryData` line loop. -/
def processPricingLine (st : PricingState) (rawLine : List Char) : PricingState :=
  let line := jsTrim rawLine
  let openC : Int := rawLine.count lbrace
  let closeC : Int := rawLine.count rbrace
  if line = [] then
    let d := st.depth + openC - closeC
    let st1 := { st with depth := d }
    let st2 := if d < 2 ∧ st1.currentItemName ≠ none then pricingCommit st1 else st1
    { st2 with depth := if st2.depth < 0 then 0 else st2.depth }
  else
    match matchItemStart line with
    | some rawKey =>
      if st.depth = 1 then
        let stc := pricingCommit st
        let decoded := decodeHtmlEntities rawKey
        let st1 := { stc with
          currentItemName := some decoded
          currentNormalizedName := some (normalizeItemName decoded) }
        let d := st1.depth + openC - closeC
        { st1 with depth := if d < 0 then 0 else d }
      else
        let st1 := pricingKeyValueStep st line
        let d := st1.depth + openC - closeC
        let st2 := { st1 with depth := d }
        let st3 := if d < 2 ∧ st2.currentItemName ≠ none then pricingCommit st2 else st2
        { st3 with depth := if st3.depth < 0 then 0 else st3.depth }
    | none =>
      let st1 := pricingKeyValueStep st line
      let d := st1.depth + openC - closeC
      let st2 := { st1 with depth := d }
      let st3 := if d < 2 ∧ st2.currentItemName ≠ none then pricingCommit st2 else st2
      { st3 with depth := if st3.depth < 0 then 0 else st3.depth }

/-- `parsePricingHistoryData` (AuctionatorDataService.ts): per display name,
capture the item id from the `"is"` entry and every numeric-keyed raw history
record, tracking the highest time key seen in the whole table. -/
def parsePricingHistoryData (tableBlock : List Char) : PricingHistoryParseResult :=
  let final :=
    pricingCommit ((splitLines tableBlock).foldl processPricingLine
      ⟨0, none, none, none, [], none, [], []⟩)
  ⟨final.index, final.entriesByItemId, final.maxKey⟩

/-- Match `AUCTIONATOR_LAST_SCAN_TIME\s*=\s*(\d+)` at the current position. -/
def matchLastScanAt (l : List Char) : Option Nat :=
  if "AUCTIONATOR_LAST_SCAN_TIME".toList.isPrefixOf l then
    match (l.drop 26).dropWhile isWs with
    | '=' :: r =>
      let run := (r.dropWhile isWs).takeWhile isDigit
      if run = [] then none else some (decRunVal run)
    | _ => none
  else none

/-- `extractLastScanTime` (AuctionatorDataService.ts). -/
def extractLastScanTime : List Char → Option Nat
  | [] => none
  | c :: rest =>
    match matchLastScanAt (c :: rest) with
    | some v => some v
    | none => extractLastScanTime rest

/-- `Math.round(t / q)` for positive `t` and `q` (round half toward
positive infinity), computed exactly on integers. -/
def jsRound (t q : Int) : Int := (2 * t + q) / (2 * q)

/-- The running-maximum update over one raw record's time key. -/
def maxKeyStep (acc : Option Nat) (r : RawHistoryRecord) : Option Nat :=
  match acc with
  | none => some r.key
  | some m => if m < r.key then some r.key else some m

/-- The global maximum time key of a raw-history map (the recomputation
`convertRawHistoryToEntries` performs when no override is supplied). -/
def computedMaxKey (raw : List (Nat × List RawHistoryRecord)) : Option Nat :=
  raw.foldl (fun acc p => p.2.foldl maxKeyStep acc) none

/-- The entry a raw record would produce in `convertRawHistoryToEntries`:
per-item price `Math.round(totalPrice / max(quantity, 1))` and timestamp
`anchor - (maxKey - key) * 60` seconds clamped at the epoch (the code builds
the ISO string of exactly this clamped value). -/
def recEntry (anchorSeconds : Int) (globalMaxKey : Option Nat) (source : List Char)
    (r : RawHistoryRecord) : PriceHistoryEntry :=
  let importedAtSeconds : Int :=
    match globalMaxKey with
    | some m => anchorSeconds - ((m : Int) - (r.key : Int)) * 60
    | none => anchorSeconds
  ⟨jsRound r.totalPrice (max r.quantity 1), (max importedAtSeconds 0).toNat, source⟩

/-- One iteration of the per-item entry-building loop of
`convertRawHistoryToEntries`: drop records with non-positive total or
per-item price and exact `(price, timestamp)` duplicates, append the rest. -/
def recStep (anchorSeconds : Int) (globalMaxKey : Option Nat) (source : List Char)
    (entries : List PriceHistoryEntry) (r : RawHistoryRecord) :
    List PriceHistoryEntry :=
  if r.totalPrice ≤ 0 then entries
  else
    let e := recEntry anchorSeconds globalMaxKey source r
    if e.price ≤ 0 then entries
    else if entries.any (fun x => x.price = e.price ∧ x.importedAt = e.importedAt) then
      entries
    else entries ++ [e]

/-- The per-item entry-building loop of `convertRawHistoryToEntries`:
records sorted by time key, then folded through `recStep`. -/
def convertRecords (anchorSeconds : Int) (globalMaxKey : Option Nat)
    (source : List Char) (records : List RawHistoryRecord) :
    List PriceHistoryEntry :=
  (sortByKey (·.key) records).foldl (recStep anchorSeconds globalMaxKey source) []

/-- The per-item step of the `rawHistory.forEach` loop of
`convertRawHistoryToEntries`. -/
def convStep (anchorSeconds : Int) (globalMaxKey : Option Nat) (source : List Char)
    (h : HistMap) (p : Nat × List RawHistoryRecord) : HistMap :=
  let entries := sortByTime (convertRecords anchorSeconds globalMaxKey source p.2)
  if HISTORY_LIMIT < entries.length then mset h p.1 (sliceLast HISTORY_LIMIT entries)
  else if entries ≠ [] then mset h p.1 entries
  else h

/-- `convertRawHistoryToEntries` (AuctionatorDataService.ts). -/
def convertRawHistoryToEntries (rawHistory : List (Nat × List RawHistoryRecord))
    (source : List Char) (anchorSeconds : Int) (maxKeyOverride : Option Nat) :
    HistMap :=
  let globalMaxKey :=
    match maxKeyOverride with
    | some m => some m
    | none => computedMaxKey rawHistory
  rawHistory.foldl (convStep anchorSeconds globalMaxKey source) []

/-- The result record of `mapNamePricesToItemIds` (the mutated
`itemNameIndex` is threaded internally; `parse` does not read it again). -/
structure MappedPrices where
  prices : List (Nat × Int)
  unknownNames : List (List Char)
  resolvedNames : List (List Char × Nat)

/-- `Set.prototype.add`: append if absent, keep insertion order. -/
def setAdd {α : Type} [DecidableEq α] (s : List α) (x : α) : List α :=
  if x ∈ s then s else s ++ [x]

/-- One iteration of the `mapNamePricesToItemIds` loop; the first component
of the accumulator is the (mutated) `itemNameIndex`. -/
def mapNamePriceStep (historyIndex : List (List Char × Nat))
    (acc : List (List Char × Nat) × MappedPrices)
    (p : List Char × Int) : List (List Char × Nat) × MappedPrices :=
  let idx := acc.1
  let r := acc.2
  let decodedName := decodeHtmlEntities p.1
  let normalized := normalizeItemName decodedName
  match mget idx normalized with
  | some itemId =>
    (idx,
     { r with
        resolvedNames := mset r.resolvedNames decodedName itemId
        prices := updateMin r.prices itemId p.2 })
  | none =>
    match mget historyIndex normalized with
    | some itemId =>
      (mset idx normalized itemId,
       { r with
          resolvedNames := mset r.resolvedNames decodedName itemId
          prices := updateMin r.prices itemId p.2 })
    | none => (idx, { r with unknownNames := setAdd r.unknownNames decodedName })

/-- `mapNamePricesToItemIds` (AuctionatorDataService.ts): resolve display
names through the reference index, then the pricing-history index; keep the
minimum price per item id; collect unresolved names. -/
def mapNamePricesToItemIds (namePrices : List (List Char × Int))
    (itemNameIndex : List (List Char × Nat))
    (historyIndex : List (List Char × Nat)) : MappedPrices :=
  (namePrices.foldl (mapNamePriceStep historyIndex)
    (itemNameIndex, ⟨[], [], []⟩)).2

/-- The duplicate test of `mergeHistories` and of the `parse` assembly loop:
an exact `(timestamp, price)` match. -/
def entryDup (u : List PriceHistoryEntry) (e : PriceHistoryEntry) : Bool :=
  u.any fun x => x.importedAt = e.importedAt ∧ x.price = e.price

/-- The entry-accumulation loop of `mergeHistories`: append each incoming
entry unless an exact `(timestamp, price)` duplicate is already present. -/
def dedupAppend (u : List PriceHistoryEntry) (es : List PriceHistoryEntry) :
    List PriceHistoryEntry :=
  es.foldl (fun u e => if entryDup u e then u else u ++ [e]) u

/-- `mergeHistories` (AuctionatorDataService.ts): copy `existing`, then for
every item of `incoming` with a non-empty entry list append its entries
(skipping exact duplicates), re-sort by timestamp and keep the most recent
`limit` entries. -/
def mergeHistories (existing incoming : HistMap) (limit : Nat) : HistMap :=
  let result := existing.foldl (fun r p => mset r p.1 p.2) ([] : HistMap)
  incoming.foldl
    (fun r p =>
      if p.2 = [] then r
      else
        let updates := dedupAppend ((mget r p.1).getD []) p.2
        mset r p.1 (sliceLast limit (sortByTime updates)))
    result

namespace AuctionatorDataService

/-- `AuctionatorDataService.parse` (current version).  The awaited
`loadItemNameIndex()` result and the current time are the `itemNameIndex`
and `nowSeconds` parameters; the `ItemNameResolver.prime` call and the
console logging only affect external state, not the returned value; the
disabled Wowhead block is omitted.  A thrown `Error` is `Except.error`. -/
def parse (content : List Char) (sourceLabel : List Char)
    (itemNameIndex : List (List Char × Nat)) (nowSeconds : Nat) :
    Except (List Char) AuctionatorParsedData :=
  let priceBlock := extractTableBlock content "AUCTIONATOR_PRICE_DATABASE".toList
  let historyBlock := extractTableBlock content "AUCTIONATOR_PRICING_HISTORY".toList
  if priceBlock = none ∧ historyBlock = none then
    .error ("Auctionator.lua does not contain AUCTIONATOR_PRICE_DATABASE or " ++
      "AUCTIONATOR_PRICING_HISTORY sections.").toList
  else
    let namePrices :=
      match priceBlock with
      | some b => parseNamedPriceDatabase b
      | none => []
    let historyData := historyBlock.map parsePricingHistoryData
    let historyIndex := (historyData.map (·.index)).getD []
    let rawHistory := (historyData.map (·.entriesByItemId)).getD []
    let historyMaxKey := (historyData.map (·.maxKey)).getD none
    let lastScanTime := extractLastScanTime content
    let resolved := mapNamePricesToItemIds namePrices itemNameIndex historyIndex
    let itemPrices :=
      if resolved.prices = [] then
        match priceBlock with
        | some b => parseLegacyPriceDatabase b
        | none => resolved.prices
      else resolved.prices
    let anchorTimestamp : Nat := lastScanTime.getD nowSeconds
    let importedAt := anchorTimestamp
    let historyFromFile :=
      convertRawHistoryToEntries rawHistory sourceLabel (anchorTimestamp : Int)
        historyMaxKey
    let history := historyFromFile.foldl (fun h p => mset h p.1 p.2) ([] : HistMap)
    let history := itemPrices.foldl
      (fun h p =>
        let existingEntries := (mget h p.1).getD []
        let latest : PriceHistoryEntry := ⟨p.2, importedAt, sourceLabel⟩
        let entries :=
          if entryDup existingEntries latest then existingEntries
          else sortByTime (existingEntries ++ [latest])
        mset h p.1 (sliceLast HISTORY_LIMIT entries))
      history
    .ok ⟨history, some (anchorTimestamp : Int), sourceLabel⟩

/-- `AuctionatorDataService.mergeWithExisting`: merge histories, metadata
from `incoming`. -/
def mergeWithExisting (existing : Option AuctionatorParsedData)
    (incoming : AuctionatorParsedData) : AuctionatorParsedData :=
  match existing with
  | none => incoming
  | some ex =>
    ⟨mergeHistories ex.itemPrices incoming.itemPrices HISTORY_LIMIT,
     incoming.importedAt, incoming.source⟩

/-- `AuctionatorDataService.mergePreferRecent`: see the source for the
validity/order case split on the two parsed `importedAt` times. -/
def mergePreferRecent (first second : Option AuctionatorParsedData) :
    Option AuctionatorParsedData :=
  match first, second with
  | none, none => none
  | none, some s => some s
  | some f, none => some f
  | some f, some s =>
    match f.importedAt, s.importedAt with
    | none, none => some (mergeWithExisting (some f) s)
    | none, some _ => some (mergeWithExisting (some f) s)
    | some _, none => some (mergeWithExisting (some s) f)
    | some ft, some st =>
      if ft ≤ st then some (mergeWithExisting (some f) s)
      else some (mergeWithExisting (some s) f)

end AuctionatorDataService

/-- The `ItemNameResolver` identity cache: forward map keyed by normalized
name, backward map keyed by item id. -/
structure CacheState where
  nameToId : List (List Char × Nat)
  idToName : List (Nat × List Char)

/-- `storeMapping` (ItemNameResolver.ts): reject an empty normalized name,
otherwise set both directions (persistence scheduling, the
`registerNameMapping` mirror and listener notification do not touch the two
maps). -/
def storeMapping (cache : CacheState) (name : List Char) (itemId : Nat) : CacheState :=
  if normalizeItemName name = [] then cache
  else
    ⟨mset cache.nameToId (normalizeItemName name) itemId,
     mset cache.idToName itemId name⟩

/-- Whether a `storeMapping` call passes its guard (an insertion happens). -/
abbrev storeOk (name : List Char) : Prop := normalizeItemName name ≠ []

/-- A sequence of `storeMapping` calls (as performed by `resolve`,
`resolveId` and `prime`), applied left to right. -/
def applyStores (cache : CacheState) : List (List Char × Nat) → CacheState
  | [] => cache
  | p :: rest => applyStores (storeMapping cache p.1 p.2) rest

/-- The empty identity cache. -/
def emptyCache : CacheState := ⟨[], []⟩

/-- Sorted ascending by `key` (non-strict, ties allowed). -/
abbrev SortedByKey {α : Type} (key : α → Nat) (l : List α) : Prop :=
  l.Pairwise (fun a b => key a ≤ key b)

/-- The per-item step of the `incoming.forEach` loop of `mergeHistories`. -/
def mergeStep (limit : Nat) (r : HistMap) (p : Nat × List PriceHistoryEntry) : HistMap :=
  if p.2 = [] then r
  else mset r p.1 (sliceLast limit (sortByTime (dedupAppend ((mget r p.1).getD []) p.2)))

/-- Fold a list of prices into a running minimum, starting from an optional
current value — the cumulative effect of repeated `updateMin` calls on one
key. -/
def minFold (o : Option Int) (ps : List Int) : Option Int :=
  ps.foldl
    (fun acc p =>
      match acc with
      | none => some p
      | some m => if p < m then some p else some m)
    o

/-- The prices observed for one display name in an observation list. -/
def obsFor (name : List Char) (obs : List (List Char × Int)) : List Int :=
  obs.filterMap fun kp => if kp.1 = name then some kp.2 else none

/-- Closing-brace surplus of a prefix: the scan depth after reading `p`
starting from depth `d` is `d - braceDiff p`. -/
def braceDiff (p : List Char) : Int := (p.count rbrace : Int) - (p.count lbrace : Int)

/-- Specification-side definition (from the amended C6 wording): the side of
`mergePreferRecent` whose metadata the result carries — the chronologically
later valid `importedAt` (ties to the second argument), the second argument
when both are unparseable. -/
def preferRecentPrimary (a b : AuctionatorParsedData) : AuctionatorParsedData :=
  match a.importedAt, b.importedAt with
  | some ta, some tb => if ta ≤ tb then b else a
  | some _, none => a
  | none, _ => b

/-- Specification-side definition: the non-primary side of
`mergePreferRecent`. -/
def preferRecentOther (a b : AuctionatorParsedData) : AuctionatorParsedData :=
  match a.importedAt, b.importedAt with
  | some ta, some tb => if ta ≤ tb then a else b
  | some _, none => b
  | none, _ => a

/-- Every white-space character is a plain space and no two white-space
characters are adjacent — the shape of `collapseWs` output. -/
def Collapsed (l : List Char) : Prop :=
  (∀ c ∈ l, isWs c = true → c = ' ') ∧
  l.Chain' (fun a b => ¬(isWs a = true ∧ isWs b = true))

/-- The first character, if any, is not white space. -/
def HeadNotWs (l : List Char) : Prop := ∀ x, l.head? = some x → isWs x = false

/-- The last character, if any, is not white space. -/
def LastNotWs (l : List Char) : Prop := ∀ x, l.getLast? = some x → isWs x = false

section MapLemmas

variable {κ α : Type} [DecidableEq κ]

theorem mget_mset (m : List (κ × α)) (k k' : κ) (v : α) :
    mget (mset m k v) k' = if k = k' then some v else mget m k' := by
  induction m with
  | nil => simp [mset, mget]
  | cons p rest ih =>
    obtain ⟨a, b⟩ := p
    by_cases h1 : a = k
    · subst h1
      simp only [mset, if_pos rfl, mget]
      by_cases h2 : a = k' <;> simp [h2, mget]
    · simp only [mset, if_neg h1, mget]
      by_cases h2 : a = k'
      · subst h2
        have hk : ¬ k = a := fun h => h1 h.symm
        simp [hk]
      · simp [h2, ih]

theorem mget_eq_none_iff (m : List (κ × α)) (k : κ) :
    mget m k = none ↔ k ∉ m.map Prod.fst := by
  induction m with
  | nil => simp [mget]
  | cons p rest ih =>
    obtain ⟨a, b⟩ := p
    by_cases h : a = k
    · subst h; simp [mget]
    · have : ¬ k = a := fun hk => h hk.symm
      simp [mget, h, this, ih]

theorem mset_of_mget_none (m : List (κ × α)) (k : κ) (v : α) (h : mget m k = none) :
    mset m k v = m ++ [(k, v)] := by
  induction m with
  | nil => simp [mset]
  | cons p rest ih =>
    obtain ⟨a, b⟩ := p
    simp only [mget] at h
    by_cases h1 : a = k
    · simp [h1] at h
    · simp only [mset, if_neg h1, List.cons_append, List.cons.injEq, true_and]
      exact ih (by simpa [h1] using h)

theorem mset_of_mget_some (m : List (κ × α)) (k : κ) (v : α) (h : mget m k = some v) :
    mset m k v = m := by
  induction m with
  | nil => simp [mget] at h
  | cons p rest ih =>
    obtain ⟨a, b⟩ := p
    by_cases h1 : a = k
    · subst h1
      have hb : b = v := by simpa [mget] using h
      subst hb
      simp [mset]
    · simp only [mget, if_neg h1] at h
      simp [mset, h1, ih h]

theorem keys_mset (m : List (κ × α)) (k : κ) (v : α) :
    (mset m k v).map Prod.fst =
      if k ∈ m.map Prod.fst then m.map Prod.fst else m.map Prod.fst ++ [k] := by
  induction m with
  | nil => simp [mset]
  | cons p rest ih =>
    obtain ⟨a, b⟩ := p
    by_cases h1 : a = k
    · simp [mset, h1]
    · have : ¬ k = a := fun hk => h1 hk.symm
      simp only [mset, if_neg h1, List.map_cons, List.mem_cons, this, false_or]
      by_cases h2 : k ∈ rest.map Prod.fst <;> simp [h2, ih]

theorem nodupKeys_mset (m : List (κ × α)) (k : κ) (v : α) (h : NodupKeys m) :
    NodupKeys (mset m k v) := by
  unfold NodupKeys at *
  rw [keys_mset]
  by_cases hk : k ∈ m.map Prod.fst
  · simpa [hk]
  · rw [if_neg hk]
    refine List.Nodup.append h (by simp) ?_
    intro x hx hxk
    simp only [List.mem_singleton] at hxk
    exact hk (hxk ▸ hx)

theorem foldl_mset_append (e : List (κ × α)) :
    ∀ acc : List (κ × α), NodupKeys e →
      (∀ k, k ∈ e.map Prod.fst → mget acc k = none) →
      e.foldl (fun r p => mset r p.1 p.2) acc = acc ++ e := by
  induction e with
  | nil => simp
  | cons p rest ih =>
    intro acc hnd hdisj
    have hp : mget acc p.1 = none := hdisj p.1 (by simp)
    have hnd0 : p.1 ∉ rest.map Prod.fst ∧ (rest.map Prod.fst).Nodup := by
      have := hnd
      unfold NodupKeys at this
      simpa [List.nodup_cons] using this
    have hdisj' : ∀ k, k ∈ rest.map Prod.fst → mget (acc ++ [p]) k = none := by
      intro k hk
      have h1 : mget acc k = none := hdisj k (by simp [hk])
      have h2 : ¬ k = p.1 := fun h => hnd0.1 (h ▸ hk)
      rw [mget_eq_none_iff] at h1 ⊢
      simp only [List.map_append, List.mem_append] at *
      rintro (hc | hc)
      · exact h1 hc
      · simp only [List.map_cons, List.map_nil, List.mem_singleton] at hc
        exact h2 hc
    simp only [List.foldl_cons]
    rw [mset_of_mget_none _ _ _ hp, ih (acc ++ [p]) hnd0.2 hdisj']
    simp

theorem copy_eq (e : List (κ × α)) (h : NodupKeys e) :
    e.foldl (fun r p => mset r p.1 p.2) [] = e := by
  simpa using foldl_mset_append e [] h (by simp [mget])

end MapLemmas

section SortLemmas

variable {α : Type} (key : α → Nat)

theorem insertByKey_perm (e : α) (l : List α) :
    List.Perm (insertByKey key e l) (e :: l) := by
  induction l with
  | nil => simp [insertByKey]
  | cons x xs ih =>
    by_cases h : key e ≤ key x
    · simp [insertByKey, h]
    · simp only [insertByKey, if_neg h]
      exact (ih.cons x).trans (List.Perm.swap e x xs)

theorem sortByKey_perm (l : List α) : List.Perm (sortByKey key l) l := by
  induction l with
  | nil => simp [sortByKey]
  | cons x xs ih =>
    exact ((insertByKey_perm key x (sortByKey key xs)).trans (ih.cons x))

theorem mem_sortByKey {x : α} {l : List α} : x ∈ sortByKey key l ↔ x ∈ l :=
  (sortByKey_perm key l).mem_iff

theorem insertByKey_sorted (e : α) (l : List α) (h : SortedByKey key l) :
    SortedByKey key (insertByKey key e l) := by
  induction l with
  | nil => simp [insertByKey, SortedByKey]
  | cons x xs ih =>
    simp only [SortedByKey, List.pairwise_cons] at h
    by_cases hle : key e ≤ key x
    · rw [insertByKey, if_pos hle]
      refine List.Pairwise.cons ?_ ?_
      · intro b hb
        rcases List.mem_cons.mp hb with rfl | hb
        · exact hle
        · exact hle.trans (h.1 b hb)
      · exact List.Pairwise.cons h.1 h.2
    · rw [insertByKey, if_neg hle]
      refine List.Pairwise.cons ?_ ?_
      · intro b hb
        rcases List.mem_cons.mp ((insertByKey_perm key e xs).mem_iff.mp hb) with rfl | hb
        · exact le_of_not_le hle
        · exact h.1 b hb
      · exact ih h.2

theorem sortByKey_sorted (l : List α) : SortedByKey key (sortByKey key l) := by
  induction l with
  | nil => simp [sortByKey, SortedByKey]
  | cons x xs ih => exact insertByKey_sorted key x _ ih

theorem insertByKey_of_le (e : α) (l : List α)
    (h : ∀ b ∈ l, key e ≤ key b) : insertByKey key e l = e :: l := by
  cases l with
  | nil => simp [insertByKey]
  | cons x xs => rw [insertByKey, if_pos (h x (by simp))]

theorem sortByKey_eq_self (l : List α) (h : SortedByKey key l) :
    sortByKey key l = l := by
  induction l with
  | nil => simp [sortByKey]
  | cons x xs ih =>
    simp only [SortedByKey, List.pairwise_cons] at h
    rw [sortByKey, ih h.2]
    exact insertByKey_of_le key x xs h.1

theorem sortByKey_length (l : List α) : (sortByKey key l).length = l.length :=
  (sortByKey_perm key l).length_eq

end SortLemmas

section SliceLemmas

variable {α : Type}

theorem sliceLast_suffix (limit : Nat) (l : List α) : sliceLast limit l <:+ l := by
  unfold sliceLast
  by_cases h : limit = 0
  · simp [h]
  · simp only [if_neg h]
    exact List.drop_suffix _ l

theorem sliceLast_length_le (limit : Nat) (l : List α) (h : 0 < limit) :
    (sliceLast limit l).length ≤ limit := by
  unfold sliceLast
  rw [if_neg (Nat.pos_iff_ne_zero.mp h)]
  simp only [List.length_drop]
  omega

theorem sliceLast_eq_self (limit : Nat) (l : List α) (h : l.length ≤ limit) :
    sliceLast limit l = l := by
  unfold sliceLast
  by_cases h0 : limit = 0
  · simp [h0]
  · rw [if_neg h0]
    have : l.length - limit = 0 := by omega
    simp [this]

theorem sliceLast_sorted (key : α → Nat) (limit : Nat) (l : List α)
    (h : SortedByKey key l) : SortedByKey key (sliceLast limit l) :=
  (h.sublist (sliceLast_suffix limit l).sublist)

end SliceLemmas

section DedupLemmas

theorem dedupAppend_shape (es : List PriceHistoryEntry) :
    ∀ u, ∃ extra, dedupAppend u es = u ++ extra := by
  induction es with
  | nil => intro u; exact ⟨[], by simp [dedupAppend]⟩
  | cons e rest ih =>
    intro u
    by_cases h : entryDup u e
    · obtain ⟨extra, hx⟩ := ih u
      exact ⟨extra, by simp [dedupAppend, h] at hx ⊢; exact hx⟩
    · obtain ⟨extra, hx⟩ := ih (u ++ [e])
      refine ⟨e :: extra, ?_⟩
      simp only [dedupAppend, List.foldl_cons, h, Bool.false_eq_true, if_false] at hx ⊢
      rw [hx]; simp

theorem entryDup_append_left (u extra : List PriceHistoryEntry)
    (e : PriceHistoryEntry) (h : entryDup u e = true) :
    entryDup (u ++ extra) e = true := by
  simp only [entryDup, List.any_append, Bool.or_eq_true]
  exact Or.inl h

theorem entryDup_dedupAppend (es : List PriceHistoryEntry) :
    ∀ u e, e ∈ es → entryDup (dedupAppend u es) e = true := by
  induction es with
  | nil => intro u e h; simp at h
  | cons a rest ih =>
    intro u e h
    rcases List.mem_cons.mp h with rfl | h
    · by_cases ha : entryDup u e
      · simp only [dedupAppend, List.foldl_cons, ha, if_true]
        obtain ⟨extra, hx⟩ := dedupAppend_shape rest u
        rw [show rest.foldl (fun u e => if entryDup u e then u else u ++ [e]) u
            = dedupAppend u rest from rfl, hx]
        exact entryDup_append_left _ _ _ ha
      · simp only [dedupAppend, List.foldl_cons, ha, Bool.false_eq_true, if_false]
        obtain ⟨extra, hx⟩ := dedupAppend_shape rest (u ++ [e])
        rw [show rest.foldl (fun u e => if entryDup u e then u else u ++ [e]) (u ++ [e])
            = dedupAppend (u ++ [e]) rest from rfl, hx]
        refine entryDup_append_left _ _ _ ?_
        simp [entryDup]
    · by_cases ha : entryDup u a
      · simpa only [dedupAppend, List.foldl_cons, ha, if_true] using ih u e h
      · simpa only [dedupAppend, List.foldl_cons, ha, Bool.false_eq_true, if_false]
          using ih (u ++ [a]) e h

theorem dedupAppend_of_all_dup (es : List PriceHistoryEntry) :
    ∀ u, (∀ e ∈ es, entryDup u e = true) → dedupAppend u es = u := by
  induction es with
  | nil => intro u _; simp [dedupAppend]
  | cons a rest ih =>
    intro u h
    have ha : entryDup u a = true := h a (by simp)
    simp only [dedupAppend, List.foldl_cons, ha, if_true]
    exact ih u (fun e he => h e (by simp [he]))

theorem entryDup_of_perm {u v : List PriceHistoryEntry} (h : List.Perm u v)
    (e : PriceHistoryEntry) : entryDup u e = entryDup v e := by
  simp only [entryDup]
  rw [Bool.eq_iff_iff]
  simp only [List.any_eq_true, h.mem_iff]

theorem entryDup_of_mem (u : List PriceHistoryEntry) (e : PriceHistoryEntry)
    (h : e ∈ u) : entryDup u e = true := by
  simp only [entryDup, List.any_eq_true]
  exact ⟨e, h, by simp⟩

theorem dedupAppend_length (es : List PriceHistoryEntry) :
    ∀ u, (dedupAppend u es).length ≤ u.length + es.length := by
  induction es with
  | nil => intro u; simp [dedupAppend]
  | cons a rest ih =>
    intro u
    by_cases ha : entryDup u a
    · simp only [dedupAppend, List.foldl_cons, ha, if_true]
      have := ih u
      simp only [dedupAppend] at this
      simp only [List.length_cons]
      omega
    · simp only [dedupAppend, List.foldl_cons, ha, Bool.false_eq_true, if_false]
      have := ih (u ++ [a])
      simp only [dedupAppend] at this
      simp only [List.length_append, List.length_cons, List.length_nil] at this ⊢
      omega

end DedupLemmas

section MergeLemmas

theorem mergeHistories_eq (e inc : HistMap) (lim : Nat) :
    mergeHistories e inc lim =
      inc.foldl (mergeStep lim) (e.foldl (fun r p => mset r p.1 p.2) []) := rfl

theorem mget_foldl_mergeStep_of_not_mem (lim : Nat) (inc : HistMap) :
    ∀ (r : HistMap) (i : Nat), (∀ p ∈ inc, p.1 ≠ i) →
      mget (inc.foldl (mergeStep lim) r) i = mget r i := by
  induction inc with
  | nil => intro r i _; rfl
  | cons p rest ih =>
    intro r i h
    have hp : p.1 ≠ i := h p (by simp)
    have hr : mget (mergeStep lim r p) i = mget r i := by
      unfold mergeStep
      by_cases hempty : p.2 = []
      · simp [hempty]
      · rw [if_neg hempty, mget_mset, if_neg hp]
    rw [List.foldl_cons, ih _ i (fun q hq => h q (by simp [hq])), hr]

theorem nodupKeys_foldl_mset (e : HistMap) :
    ∀ acc : HistMap, NodupKeys acc →
      NodupKeys (e.foldl (fun r p => mset r p.1 p.2) acc) := by
  induction e with
  | nil => intro acc h; exact h
  | cons p rest ih =>
    intro acc h
    exact ih _ (nodupKeys_mset _ _ _ h)

theorem nodupKeys_foldl_mergeStep (lim : Nat) (inc : HistMap) :
    ∀ r : HistMap, NodupKeys r → NodupKeys (inc.foldl (mergeStep lim) r) := by
  induction inc with
  | nil => intro r h; exact h
  | cons p rest ih =>
    intro r h
    refine ih _ ?_
    unfold mergeStep
    by_cases hempty : p.2 = []
    · simpa [hempty]
    · rw [if_neg hempty]
      exact nodupKeys_mset _ _ _ h

theorem nodupKeys_mergeHistories (e inc : HistMap) (lim : Nat) :
    NodupKeys (mergeHistories e inc lim) := by
  rw [mergeHistories_eq]
  exact nodupKeys_foldl_mergeStep lim inc _
    (nodupKeys_foldl_mset e [] (by simp [NodupKeys]))

theorem mget_foldl_mergeStep (lim : Nat) (inc : HistMap) :
    ∀ (r : HistMap) (i : Nat), NodupKeys inc →
      mget (inc.foldl (mergeStep lim) r) i =
        match mget inc i with
        | none => mget r i
        | some es =>
          if es = [] then mget r i
          else some (sliceLast lim (sortByTime (dedupAppend ((mget r i).getD []) es))) := by
  induction inc with
  | nil => intro r i _; rfl
  | cons p rest ih =>
    intro r i hnd
    have hnd0 : p.1 ∉ rest.map Prod.fst ∧ (rest.map Prod.fst).Nodup := by
      have := hnd
      unfold NodupKeys at this
      simpa [List.nodup_cons] using this
    by_cases hpi : p.1 = i
    · have hgetinc : mget (p :: rest) i = some p.2 := by
        obtain ⟨a, b⟩ := p
        simp only at hpi
        simp [mget, hpi]
      have hrest : ∀ q ∈ rest, q.1 ≠ i := by
        intro q hq hqi
        exact hnd0.1 (by simpa [hpi, hqi] using List.mem_map_of_mem Prod.fst hq)
      rw [List.foldl_cons, mget_foldl_mergeStep_of_not_mem lim rest _ i hrest, hgetinc]
      unfold mergeStep
      by_cases hempty : p.2 = []
      · simp [hempty]
      · rw [if_neg hempty, mget_mset, if_pos hpi, hpi]
        simp [hempty]
    · have hgetinc : mget (p :: rest) i = mget rest i := by
        obtain ⟨a, b⟩ := p
        simp only at hpi
        simp [mget, hpi]
      have hr : mget (mergeStep lim r p) i = mget r i := by
        unfold mergeStep
        by_cases hempty : p.2 = []
        · simp [hempty]
        · rw [if_neg hempty, mget_mset, if_neg hpi]
      rw [List.foldl_cons, ih _ i hnd0.2, hgetinc, hr]

theorem mget_mergeHistories (e inc : HistMap) (lim : Nat) (i : Nat)
    (hne : NodupKeys e) (hni : NodupKeys inc) :
    mget (mergeHistories e inc lim) i =
      match mget inc i with
      | none => mget e i
      | some es =>
        if es = [] then mget e i
        else some (sliceLast lim (sortByTime (dedupAppend ((mget e i).getD []) es))) := by
  rw [mergeHistories_eq, copy_eq e hne]
  exact mget_foldl_mergeStep lim inc e i hni

end MergeLemmas

section MoreMapLemmas

variable {κ α : Type} [DecidableEq κ]

theorem mget_mem (m : List (κ × α)) (k : κ) (v : α) (h : mget m k = some v) :
    (k, v) ∈ m := by
  induction m with
  | nil => simp [mget] at h
  | cons p rest ih =>
    obtain ⟨a, b⟩ := p
    by_cases h1 : a = k
    · subst h1
      have : b = v := by simpa [mget] using h
      subst this; simp
    · simp only [mget, if_neg h1] at h
      simp [ih h]

theorem mget_of_mem_nodup (m : List (κ × α)) (k : κ) (v : α)
    (hnd : NodupKeys m) (h : (k, v) ∈ m) : mget m k = some v := by
  induction m with
  | nil => simp at h
  | cons p rest ih =>
    obtain ⟨a, b⟩ := p
    have hnd0 : a ∉ rest.map Prod.fst ∧ (rest.map Prod.fst).Nodup := by
      have := hnd
      unfold NodupKeys at this
      simpa [List.nodup_cons] using this
    rcases List.mem_cons.mp h with heq | h
    · injection heq with h1 h2
      subst h1; subst h2
      simp [mget]
    · have hk : ¬ a = k := by
        intro hak
        subst hak
        exact hnd0.1 (by simpa using List.mem_map_of_mem Prod.fst h)
      simp only [mget, if_neg hk]
      exact ih hnd0.2 h

theorem sliceLast_length_min {β : Type} (limit : Nat) (l : List β) (h : 0 < limit) :
    (sliceLast limit l).length = min limit l.length := by
  unfold sliceLast
  rw [if_neg (Nat.pos_iff_ne_zero.mp h)]
  simp only [List.length_drop]
  omega

theorem foldl_fix {β : Type} (f : HistMap → β → HistMap) (q : HistMap) :
    ∀ l : List β, (∀ p ∈ l, f q p = q) → l.foldl f q = q := by
  intro l
  induction l with
  | nil => intro _; rfl
  | cons p rest ih =>
    intro h
    rw [List.foldl_cons, h p (by simp)]
    exact ih (fun x hx => h x (by simp [hx]))

end MoreMapLemmas

section SortTimeLemmas

theorem sortByTime_perm (l : List PriceHistoryEntry) : List.Perm (sortByTime l) l :=
  sortByKey_perm _ l

theorem sortByTime_sorted (l : List PriceHistoryEntry) :
    SortedByKey (fun e => e.importedAt) (sortByTime l) :=
  sortByKey_sorted _ l

theorem sortByTime_length (l : List PriceHistoryEntry) :
    (sortByTime l).length = l.length :=
  sortByKey_length _ l

theorem sortByTime_eq_self (l : List PriceHistoryEntry)
    (h : SortedByKey (fun e => e.importedAt) l) : sortByTime l = l :=
  sortByKey_eq_self _ l h

end SortTimeLemmas

set_option maxRecDepth 4000 in
/-- C2 (counterexample): merging the same import twice is not idempotent as
claimed.  With the default retention limit 50, an import carrying 51 entries
for one item that share a timestamp (distinct prices), the first merge keeps
entries 1..50; re-importing re-adds entry 0, the stable re-sort leaves it
last among the equal timestamps, and the trim now drops entry 1 — the second
merge changes the ledger. -/
theorem mergeHistories_not_idempotent :
    mergeHistories
        (mergeHistories []
          [(1, (List.range 51).map (fun i => ⟨(i : Int), 0, []⟩))] HISTORY_LIMIT)
        [(1, (List.range 51).map (fun i => ⟨(i : Int), 0, []⟩))] HISTORY_LIMIT ≠
      mergeHistories []
        [(1, (List.range 51).map (fun i => ⟨(i : Int), 0, []⟩))] HISTORY_LIMIT := by
  decide

/-- C2 (amended): importing the same document twice is a no-op beyond the
first import provided every item's entry list of the import has at most
`limit` entries (every `ParsedImport` built by `parse` satisfies this, since
its per-item lists are trimmed to the retention limit): for such `P`,
`mergeHistories (mergeHistories ∅ P) P = mergeHistories ∅ P`. -/
theorem mergeHistories_idem_of_bounded (P : HistMap) (lim : Nat)
    (hnd : NodupKeys P) (hlen : ∀ p ∈ P, p.2.length ≤ lim) :
    mergeHistories (mergeHistories [] P lim) P lim = mergeHistories [] P lim := by
  have hQnd : NodupKeys (mergeHistories [] P lim) := nodupKeys_mergeHistories [] P lim
  have hstep : ∀ p ∈ P, mergeStep lim (mergeHistories [] P lim) p
      = mergeHistories [] P lim := by
    intro p hp
    unfold mergeStep
    by_cases hempty : p.2 = []
    · simp [hempty]
    · rw [if_neg hempty]
      have hPp : mget P p.1 = some p.2 :=
        mget_of_mem_nodup P p.1 p.2 hnd (by simpa using hp)
      have hQp : mget (mergeHistories [] P lim) p.1
          = some (sliceLast lim (sortByTime (dedupAppend [] p.2))) := by
        rw [mget_mergeHistories [] P lim p.1 (by simp [NodupKeys]) hnd, hPp]
        simp [hempty, mget]
      have hlenv : (sortByTime (dedupAppend [] p.2)).length ≤ lim := by
        have h1 : (dedupAppend [] p.2).length ≤ p.2.length := by
          simpa using dedupAppend_length p.2 []
        have h2 := sortByTime_length (dedupAppend [] p.2)
        have h3 := hlen p hp
        omega
      have hslice : sliceLast lim (sortByTime (dedupAppend [] p.2))
          = sortByTime (dedupAppend [] p.2) := sliceLast_eq_self _ _ hlenv
      rw [hQp]
      simp only [Option.getD_some]
      rw [hslice]
      have hdup : ∀ e ∈ p.2, entryDup (sortByTime (dedupAppend [] p.2)) e = true := by
        intro e he
        rw [entryDup_of_perm (sortByTime_perm (dedupAppend [] p.2))]
        exact entryDup_dedupAppend p.2 [] e he
      rw [dedupAppend_of_all_dup _ _ hdup,
        sortByTime_eq_self _ (sortByTime_sorted _), hslice]
      exact mset_of_mget_some _ _ _ (by rw [hQp, hslice])
  calc mergeHistories (mergeHistories [] P lim) P lim
      = P.foldl (mergeStep lim) (mergeHistories [] P lim) := by
        rw [mergeHistories_eq (mergeHistories [] P lim) P lim, copy_eq _ hQnd]
    _ = mergeHistories [] P lim := foldl_fix _ _ P hstep

/-- C2 (witness for the amended theorem). -/
theorem mergeHistories_idem_of_bounded_witness :
    mergeHistories (mergeHistories [] [(1, [⟨100, 7, []⟩])] 50)
        [(1, [⟨100, 7, []⟩])] 50 = mergeHistories [] [(1, [⟨100, 7, []⟩])] 50 :=
  mergeHistories_idem_of_bounded [(1, [⟨100, 7, []⟩])] 50 (by decide) (by decide)

/-- C3 (counterexample): the retention bound does not hold for items that
only occur in `existing` — `mergeHistories` copies them through untrimmed
(here an item with 2 entries survives a merge with `limit = 1`) — and with
`limit = 0` (`slice(-0)` is the whole array) a merged item keeps 1 > 0
entries. -/
theorem mergeHistories_retention_violated :
    (mget (mergeHistories [(1, [⟨7, 5, []⟩, ⟨8, 3, []⟩])] [] 1) 1).map List.length
        = some 2 ∧
      (mget (mergeHistories [] [(1, [⟨7, 5, []⟩])] 0) 1).map List.length = some 1 := by
  decide

/-- C3 (amended): for a positive retention limit, after
`mergeHistories existing incoming limit` every item that `incoming` carries
with a non-empty entry list has at most `limit` entries, sorted by
timestamp, forming a suffix (i.e. the most recent part) of the sorted
deduplicated union of both sides — exactly `limit` of them when more are
available; items `incoming` does not touch (absent, or present with an
empty list) are carried through from `existing` unmodified. -/
theorem mergeHistories_retention (existing incoming : HistMap) (lim i : Nat)
    (h0 : 0 < lim) (hne : NodupKeys existing) (hni : NodupKeys incoming) :
    (∀ es, mget incoming i = some es → es ≠ [] →
      ∃ l, mget (mergeHistories existing incoming lim) i = some l ∧
        l.length ≤ lim ∧ SortedByKey (fun e => e.importedAt) l ∧
        l <:+ sortByTime (dedupAppend ((mget existing i).getD []) es) ∧
        l.length = min lim (dedupAppend ((mget existing i).getD []) es).length) ∧
    ((mget incoming i = none ∨ mget incoming i = some []) →
      mget (mergeHistories existing incoming lim) i = mget existing i) := by
  rw [mget_mergeHistories existing incoming lim i hne hni]
  constructor
  · intro es hes hne'
    rw [hes]
    simp only [if_neg hne']
    refine ⟨_, rfl, sliceLast_length_le _ _ h0,
      sliceLast_sorted _ _ _ (sortByKey_sorted _ _), sliceLast_suffix _ _, ?_⟩
    rw [sliceLast_length_min _ _ h0]
    unfold sortByTime
    rw [sortByKey_length]
  · rintro (hes | hes) <;> simp [hes]

/-- C3 (witness for the amended theorem). -/
theorem mergeHistories_retention_witness :
    ∃ l, mget (mergeHistories [] [(1, [⟨7, 5, []⟩])] 50) 1 = some l ∧
      l.length ≤ 50 ∧ SortedByKey (fun e => e.importedAt) l ∧
      l <:+ sortByTime (dedupAppend ((mget ([] : HistMap) 1).getD []) [⟨7, 5, []⟩]) ∧
      l.length = min 50 (dedupAppend ((mget ([] : HistMap) 1).getD []) [⟨7, 5, []⟩]).length :=
  (mergeHistories_retention [] [(1, [⟨7, 5, []⟩])] 50 1 (by decide) (by decide)
    (by decide)).1 [⟨7, 5, []⟩] rfl (by decide)

/-- C4 (counterexample): the chronological-order invariant fails for items
present only in `existing`: an unsorted existing history (timestamps 5 then
3) is carried through unmodified by a merge. -/
theorem mergeHistories_order_violated :
    mget (mergeHistories [(1, [⟨7, 5, []⟩, ⟨8, 3, []⟩])] [] 50) 1
        = some [⟨7, 5, []⟩, ⟨8, 3, []⟩] ∧
      ¬ SortedByKey (fun e => e.importedAt)
          [(⟨7, 5, []⟩ : PriceHistoryEntry), ⟨8, 3, []⟩] := by
  constructor
  · decide
  · decide

/-- C4 (amended): after `mergeHistories`, every item's history list is
non-decreasing by timestamp provided the per-item lists of `existing`
already are (items merged with incoming entries are re-sorted
unconditionally; items only in `existing` are carried through as they
were). -/
theorem mergeHistories_sorted (existing incoming : HistMap) (lim i : Nat)
    (hne : NodupKeys existing) (hni : NodupKeys incoming)
    (hs : ∀ p ∈ existing, SortedByKey (fun e => e.importedAt) p.2) :
    ∀ l, mget (mergeHistories existing incoming lim) i = some l →
      SortedByKey (fun e => e.importedAt) l := by
  intro l hl
  rw [mget_mergeHistories existing incoming lim i hne hni] at hl
  cases hinc : mget incoming i with
  | none =>
    rw [hinc] at hl
    exact hs (i, l) (mget_mem existing i l hl)
  | some es =>
    rw [hinc] at hl
    have hl' : (if es = [] then mget existing i
        else some (sliceLast lim
          (sortByTime (dedupAppend ((mget existing i).getD []) es)))) = some l := hl
    by_cases hempty : es = []
    · rw [if_pos hempty] at hl'
      exact hs (i, l) (mget_mem existing i l hl')
    · rw [if_neg hempty] at hl'
      obtain rfl := Option.some_injective _ hl'
      exact sliceLast_sorted _ _ _ (sortByTime_sorted _)

/-- C4 (witness for the amended theorem). -/
theorem mergeHistories_sorted_witness :
    SortedByKey (fun e => e.importedAt) [(⟨3, 7, []⟩ : PriceHistoryEntry), ⟨5, 8, []⟩] :=
  mergeHistories_sorted [(1, [⟨3, 7, []⟩, ⟨5, 8, []⟩])] [] 50 1 (by decide) (by decide)
    (by decide) [⟨3, 7, []⟩, ⟨5, 8, []⟩] (by decide)

section ScanBlockLemmas

theorem braceDiff_nil : braceDiff [] = 0 := by simp [braceDiff]

theorem braceDiff_cons_rbrace (p : List Char) :
    braceDiff (rbrace :: p) = braceDiff p + 1 := by
  have h : ¬ (rbrace == lbrace) = true := by decide
  simp [braceDiff, List.count_cons, h]
  ring

theorem braceDiff_cons_lbrace (p : List Char) :
    braceDiff (lbrace :: p) = braceDiff p - 1 := by
  have h : ¬ (lbrace == rbrace) = true := by decide
  simp [braceDiff, List.count_cons, h]
  ring

theorem braceDiff_cons_other (c : Char) (p : List Char)
    (h1 : c ≠ lbrace) (h2 : c ≠ rbrace) : braceDiff (c :: p) = braceDiff p := by
  have e1 : ¬ (c == rbrace) = true := by simpa using h2
  have e2 : ¬ (c == lbrace) = true := by simpa using h1
  simp [braceDiff, List.count_cons, e1, e2]

theorem scanBlock_cons (c : Char) (rest : List Char) (e : Nat) :
    scanBlock (c :: rest) (e + 1) =
      (scanBlock rest
        (if c = lbrace then e + 2 else if c = rbrace then e else e + 1)).map
        (c :: ·) := rfl

theorem scanBlock_none_iff : ∀ (l : List Char) (d : Nat), 0 < d →
    (scanBlock l d = none ↔ ∀ p, p <+: l → braceDiff p < (d : Int)) := by
  intro l
  induction l with
  | nil =>
    intro d hd
    cases d with
    | zero => omega
    | succ e =>
      constructor
      · intro _ p hp
        rw [List.prefix_nil.mp hp, braceDiff_nil]
        push_cast; omega
      · intro _; rfl
  | cons c rest ih =>
    intro d hd
    cases d with
    | zero => omega
    | succ e =>
      rw [scanBlock_cons]
      have hlr : lbrace ≠ rbrace := by decide
      by_cases hc1 : c = lbrace
      · subst hc1
        rw [if_pos rfl, Option.map_eq_none', ih (e + 2) (by omega)]
        constructor
        · intro h p hp
          rcases List.prefix_cons_iff.mp hp with rfl | ⟨t, rfl, ht⟩
          · rw [braceDiff_nil]; push_cast; omega
          · have := h t ht
            rw [braceDiff_cons_lbrace]
            push_cast at this ⊢; omega
        · intro h p hp
          have := h (lbrace :: p) (List.prefix_cons_iff.mpr (Or.inr ⟨p, rfl, hp⟩))
          rw [braceDiff_cons_lbrace] at this
          push_cast at this ⊢; omega
      · by_cases hc2 : c = rbrace
        · subst hc2
          rw [if_neg (fun h => hlr h.symm), if_pos rfl]
          cases e with
          | zero =>
            constructor
            · intro h
              exfalso
              simp [scanBlock] at h
            · intro h
              exfalso
              have := h [rbrace] (List.prefix_cons_iff.mpr
                (Or.inr ⟨[], rfl, List.nil_prefix⟩))
              rw [braceDiff_cons_rbrace, braceDiff_nil] at this
              omega
          | succ e' =>
            rw [Option.map_eq_none', ih (e' + 1) (by omega)]
            constructor
            · intro h p hp
              rcases List.prefix_cons_iff.mp hp with rfl | ⟨t, rfl, ht⟩
              · rw [braceDiff_nil]; push_cast; omega
              · have := h t ht
                rw [braceDiff_cons_rbrace]
                push_cast at this ⊢; omega
            · intro h p hp
              have := h (rbrace :: p) (List.prefix_cons_iff.mpr (Or.inr ⟨p, rfl, hp⟩))
              rw [braceDiff_cons_rbrace] at this
              push_cast at this ⊢; omega
        · rw [if_neg hc1, if_neg hc2, Option.map_eq_none', ih (e + 1) (by omega)]
          constructor
          · intro h p hp
            rcases List.prefix_cons_iff.mp hp with rfl | ⟨t, rfl, ht⟩
            · rw [braceDiff_nil]; push_cast; omega
            · have := h t ht
              rw [braceDiff_cons_other c t hc1 hc2]
              push_cast at this ⊢; omega
          · intro h p hp
            have := h (c :: p) (List.prefix_cons_iff.mpr (Or.inr ⟨p, rfl, hp⟩))
            rw [braceDiff_cons_other c p hc1 hc2] at this
            push_cast at this ⊢; omega

end ScanBlockLemmas

section ScanBlockSomeLemmas

theorem scanBlock_some_spec : ∀ (l : List Char) (d : Nat), 0 < d →
    ∀ s, scanBlock l d = some s →
      s <+: l ∧ braceDiff s = (d : Int) ∧
        (∀ p, p <+: s → p ≠ s → braceDiff p < (d : Int)) ∧
        s.getLast? = some rbrace := by
  intro l
  induction l with
  | nil =>
    intro d hd s hs
    cases d with
    | zero => omega
    | succ e => simp [scanBlock] at hs
  | cons c rest ih =>
    intro d hd s hs
    cases d with
    | zero => omega
    | succ e =>
      rw [scanBlock_cons] at hs
      by_cases hc1 : c = lbrace
      · subst hc1
        rw [if_pos rfl] at hs
        obtain ⟨s', hs', rfl⟩ := Option.map_eq_some'.mp hs
        obtain ⟨hpre, hdiff, hbound, hlast⟩ := ih (e + 2) (by omega) s' hs'
        have hne : s' ≠ [] := by
          intro h; rw [h, braceDiff_nil] at hdiff; omega
        refine ⟨List.prefix_cons_iff.mpr (Or.inr ⟨s', rfl, hpre⟩), ?_, ?_, ?_⟩
        · rw [braceDiff_cons_lbrace]
          push_cast at hdiff ⊢; omega
        · intro p hp hps
          rcases List.prefix_cons_iff.mp hp with rfl | ⟨t, rfl, ht⟩
          · rw [braceDiff_nil]; push_cast; omega
          · have hts : t ≠ s' := fun h => hps (by rw [h])
            have := hbound t ht hts
            rw [braceDiff_cons_lbrace]
            push_cast at this ⊢; omega
        · cases s' with
          | nil => exact absurd rfl hne
          | cons x xs => rw [List.getLast?_cons_cons]; exact hlast
      · by_cases hc2 : c = rbrace
        · subst hc2
          rw [if_neg (by decide), if_pos rfl] at hs
          cases e with
          | zero =>
            have : s = [rbrace] := by
              simpa [scanBlock] using hs.symm
            subst this
            refine ⟨List.prefix_cons_iff.mpr (Or.inr ⟨[], rfl, List.nil_prefix⟩), ?_, ?_, ?_⟩
            · rw [braceDiff_cons_rbrace, braceDiff_nil]; norm_num
            · intro p hp hps
              rcases List.prefix_cons_iff.mp hp with rfl | ⟨t, rfl, ht⟩
              · rw [braceDiff_nil]; norm_num
              · have ht0 : t = [] := List.prefix_nil.mp ht
                subst ht0
                exact absurd rfl hps
            · rfl
          | succ e' =>
            obtain ⟨s', hs', rfl⟩ := Option.map_eq_some'.mp hs
            obtain ⟨hpre, hdiff, hbound, hlast⟩ := ih (e' + 1) (by omega) s' hs'
            have hne : s' ≠ [] := by
              intro h; rw [h, braceDiff_nil] at hdiff; push_cast at hdiff; omega
            refine ⟨List.prefix_cons_iff.mpr (Or.inr ⟨s', rfl, hpre⟩), ?_, ?_, ?_⟩
            · rw [braceDiff_cons_rbrace]
              push_cast at hdiff ⊢; omega
            · intro p hp hps
              rcases List.prefix_cons_iff.mp hp with rfl | ⟨t, rfl, ht⟩
              · rw [braceDiff_nil]; push_cast; omega
              · have hts : t ≠ s' := fun h => hps (by rw [h])
                have := hbound t ht hts
                rw [braceDiff_cons_rbrace]
                push_cast at this ⊢; omega
            · cases s' with
              | nil => exact absurd rfl hne
              | cons x xs => rw [List.getLast?_cons_cons]; exact hlast
        · rw [if_neg hc1, if_neg hc2] at hs
          obtain ⟨s', hs', rfl⟩ := Option.map_eq_some'.mp hs
          obtain ⟨hpre, hdiff, hbound, hlast⟩ := ih (e + 1) (by omega) s' hs'
          have hne : s' ≠ [] := by
            intro h; rw [h, braceDiff_nil] at hdiff; push_cast at hdiff; omega
          refine ⟨List.prefix_cons_iff.mpr (Or.inr ⟨s', rfl, hpre⟩), ?_, ?_, ?_⟩
          · rw [braceDiff_cons_other c s' hc1 hc2]
            push_cast at hdiff ⊢; omega
          · intro p hp hps
            rcases List.prefix_cons_iff.mp hp with rfl | ⟨t, rfl, ht⟩
            · rw [braceDiff_nil]; push_cast; omega
            · have hts : t ≠ s' := fun h => hps (by rw [h])
              have := hbound t ht hts
              rw [braceDiff_cons_other c t hc1 hc2]
              push_cast at this ⊢; omega
          · cases s' with
            | nil => exact absurd rfl hne
            | cons x xs => rw [List.getLast?_cons_cons]; exact hlast

theorem findTokenSuffix_none_iff (tok : List Char) : ∀ l,
    findTokenSuffix tok l = none ↔ ¬ (tok <:+: l) := by
  intro l
  induction l with
  | nil =>
    unfold findTokenSuffix
    by_cases h : tok.isPrefixOf ([] : List Char)
    · rw [if_pos h]
      have : tok = [] := List.prefix_nil.mp (List.isPrefixOf_iff_prefix.mp h)
      subst this
      simp
    · rw [if_neg h]
      simp only [true_iff]
      intro hinf
      have htok : tok = [] := by simpa using hinf
      subst htok
      exact h (List.isPrefixOf_iff_prefix.mpr List.nil_prefix)
  | cons c rest ih =>
    unfold findTokenSuffix
    by_cases h : tok.isPrefixOf (c :: rest)
    · rw [if_pos h]
      have hpre : tok <+: c :: rest := List.isPrefixOf_iff_prefix.mp h
      constructor
      · intro hc; exact absurd hc (by simp)
      · intro hc; exact absurd hpre.isInfix hc
    · rw [if_neg h]
      rw [ih, List.infix_cons_iff]
      have : ¬ tok <+: c :: rest := fun hp => h (List.isPrefixOf_iff_prefix.mpr hp)
      constructor
      · intro h1 h2
        rcases h2 with h2 | h2
        · exact this h2
        · exact h1 h2
      · intro h1 h2
        exact h1 (Or.inr h2)

theorem findTokenSuffix_some_split (tok : List Char) : ∀ l after,
    findTokenSuffix tok l = some after → ∃ pre, l = pre ++ tok ++ after := by
  intro l
  induction l with
  | nil =>
    intro after h
    unfold findTokenSuffix at h
    by_cases hp : tok.isPrefixOf ([] : List Char)
    · rw [if_pos hp] at h
      have : tok = [] := List.prefix_nil.mp (List.isPrefixOf_iff_prefix.mp hp)
      subst this
      obtain rfl := Option.some_injective _ h
      exact ⟨[], rfl⟩
    · rw [if_neg hp] at h; exact absurd h (by simp)
  | cons c rest ih =>
    intro after h
    unfold findTokenSuffix at h
    by_cases hp : tok.isPrefixOf (c :: rest)
    · rw [if_pos hp] at h
      obtain rfl := Option.some_injective _ h
      obtain ⟨t, ht⟩ := List.isPrefixOf_iff_prefix.mp hp
      refine ⟨[], ?_⟩
      rw [List.nil_append, ← ht, List.drop_left]
    · rw [if_neg hp] at h
      obtain ⟨pre, hpre⟩ := ih after h
      refine ⟨c :: pre, ?_⟩
      rw [hpre]
      simp

end ScanBlockSomeLemmas

/-- C10: `extractTableBlock` is total on malformed input.  (1) When the
token `"<name> = {"` never occurs, the result is "not found".  (2) When the
token occurs (with `after` the text past its first occurrence), the result
is "not found" exactly when the depth never returns to zero before the end
of the text — i.e. every prefix of `after` closes fewer braces than
`1 + `(the braces it opens).  (3) A returned span is never partial or
garbage: it is the token followed by a body whose final character is the
matching close brace — the first position where the depth returns to zero —
and the span occurs verbatim in the text. -/
theorem extractTableBlock_total (content name : List Char) :
    ((¬ tableToken name <:+: content) → extractTableBlock content name = none) ∧
      (∀ after, findTokenSuffix (tableToken name) content = some after →
        (extractTableBlock content name = none ↔
          ∀ p, p <+: after → braceDiff p < 1)) ∧
      (∀ s, extractTableBlock content name = some s →
        ∃ body, s = tableToken name ++ body ∧
          braceDiff body = 1 ∧
          (∀ p, p <+: body → p ≠ body → braceDiff p < 1) ∧
          body.getLast? = some rbrace ∧
          s <:+: content) := by
  refine ⟨?_, ?_, ?_⟩
  · intro h
    unfold extractTableBlock
    rw [(findTokenSuffix_none_iff (tableToken name) content).mpr h]
  · intro after hafter
    unfold extractTableBlock
    rw [hafter]
    rw [Option.map_eq_none']
    have := scanBlock_none_iff after 1 (by omega)
    rw [this]
    constructor
    · intro h p hp
      have := h p hp
      push_cast at this ⊢
      omega
    · intro h p hp
      have := h p hp
      push_cast at this ⊢
      omega
  · intro s hs
    unfold extractTableBlock at hs
    cases hfind : findTokenSuffix (tableToken name) content with
    | none => rw [hfind] at hs; exact absurd hs (by simp)
    | some after =>
      rw [hfind] at hs
      obtain ⟨body, hbody, rfl⟩ := Option.map_eq_some'.mp hs
      obtain ⟨hpre, hdiff, hbound, hlast⟩ := scanBlock_some_spec after 1 (by omega) body hbody
      obtain ⟨tail, htail⟩ := hpre
      obtain ⟨pre, hsplit⟩ := findTokenSuffix_some_split (tableToken name) content after hfind
      refine ⟨body, rfl, by push_cast at hdiff ⊢; omega, ?_, hlast, ?_⟩
      · intro p hp hps
        have := hbound p hp hps
        push_cast at this ⊢
        omega
      · refine ⟨pre, tail, ?_⟩
        rw [hsplit, ← htail]
        simp

/-- C10 (witness): part (3) of the totality theorem applied to a concrete
document containing `FOO = { a { b } c }`. -/
theorem extractTableBlock_total_witness :
    ∃ body, "FOO = \x7b a \x7b b \x7d c \x7d".toList = tableToken "FOO".toList ++ body ∧
      braceDiff body = 1 ∧
      (∀ p, p <+: body → p ≠ body → braceDiff p < 1) ∧
      body.getLast? = some rbrace ∧
      "FOO = \x7b a \x7b b \x7d c \x7d".toList <:+:
        "x FOO = \x7b a \x7b b \x7d c \x7d y".toList :=
  (extractTableBlock_total "x FOO = \x7b a \x7b b \x7d c \x7d y".toList "FOO".toList).2.2
    "FOO = \x7b a \x7b b \x7d c \x7d".toList (by decide)

/-- C1: `AuctionatorDataService.parse` fails (throws) if and only if neither
an `AUCTIONATOR_PRICE_DATABASE` table span nor an
`AUCTIONATOR_PRICING_HISTORY` table span can be extracted from the document
text; whenever at least one of the two is present, it returns a parsed
import.  (`itemNameIndex` is the awaited reference index, `now` the current
time; neither affects which branch is taken.) -/
theorem parse_fails_iff (content sourceLabel : List Char)
    (idx : List (List Char × Nat)) (now : Nat) :
    ((∃ msg, AuctionatorDataService.parse content sourceLabel idx now
        = Except.error msg) ↔
      extractTableBlock content "AUCTIONATOR_PRICE_DATABASE".toList = none ∧
        extractTableBlock content "AUCTIONATOR_PRICING_HISTORY".toList = none) ∧
    ((extractTableBlock content "AUCTIONATOR_PRICE_DATABASE".toList ≠ none ∨
        extractTableBlock content "AUCTIONATOR_PRICING_HISTORY".toList ≠ none) →
      ∃ d, AuctionatorDataService.parse content sourceLabel idx now = Except.ok d) := by
  unfold AuctionatorDataService.parse
  dsimp only []
  constructor
  · split
    · rename_i h
      simp only [Except.error.injEq, exists_eq']
      exact (iff_true_intro h).symm
    · rename_i h
      constructor
      · rintro ⟨msg, hmsg⟩
        exact absurd hmsg (by simp)
      · intro hcontra
        exact absurd hcontra h
  · intro hc
    split
    · rename_i h
      rcases hc with hc | hc
      · exact absurd h.1 hc
      · exact absurd h.2 hc
    · exact ⟨_, rfl⟩

/-- C1 (witness): a document containing only a pricing-history table (no
price table) still parses successfully. -/
theorem parse_fails_iff_witness :
    ∃ d, AuctionatorDataService.parse
        "AUCTIONATOR_PRICING_HISTORY = \x7b\x7d".toList "t".toList [] 0
        = Except.ok d :=
  (parse_fails_iff "AUCTIONATOR_PRICING_HISTORY = \x7b\x7d".toList "t".toList [] 0).2
    (Or.inr (by decide))

section NamedPriceLemmas

theorem mget_updateMin {κ : Type} [DecidableEq κ] (m : List (κ × Int)) (key : κ)
    (price : Int) (name : κ) :
    mget (updateMin m key price) name =
      if key = name then
        match mget m name with
        | none => some price
        | some m' => if price < m' then some price else some m'
      else mget m name := by
  unfold updateMin
  by_cases hkn : key = name
  · subst hkn
    cases hm : mget m key with
    | none => simp [mget_mset, hm]
    | some m' =>
      by_cases hp : price < m'
      · simp [hm, hp, mget_mset]
      · simp [hm, hp]
  · cases hm : mget m key with
    | none => simp [mget_mset, hkn]
    | some m' =>
      by_cases hp : price < m'
      · simp [hm, hp, mget_mset, hkn]
      · simp [hm, hp, hkn]

theorem minFold_append (o : Option Int) (a b : List Int) :
    minFold o (a ++ b) = minFold (minFold o a) b := by
  unfold minFold
  rw [List.foldl_append]

theorem obsFor_append (name : List Char) (a b : List (List Char × Int)) :
    obsFor name (a ++ b) = obsFor name a ++ obsFor name b := by
  unfold obsFor
  rw [List.filterMap_append]

theorem namedPriceLine_prices (st : NamedPriceState) (rawLine : List Char) :
    mget (processNamedPriceLine st rawLine).prices name =
      minFold (mget st.prices name) (obsFor name (namedPriceLineObs st rawLine)) := by
  unfold processNamedPriceLine namedPriceLineObs
  by_cases hline : jsTrim rawLine = []
  · simp [hline, minFold, obsFor]
  · rw [if_neg hline, if_neg hline]
    cases hkv : extractBracketKeyValue (jsTrim rawLine) with
    | none => simp [minFold, obsFor]
    | some kv =>
      obtain ⟨key, rawValue⟩ := kv
      by_cases hbrace : rawValue.head? = some lbrace
      · simp only [if_pos hbrace]
        by_cases hd : st.depth = 1 <;> simp [hd, minFold, obsFor]
      · simp only [if_neg hbrace]
        by_cases hguard : 2 ≤ st.depth ∧ st.currentRealm ≠ none
        · simp only [if_pos hguard]
          cases hint : firstIntMatch rawValue with
          | none => simp [minFold, obsFor]
          | some price =>
            by_cases hpos : 0 < price
            · simp only [if_pos hpos]
              rw [mget_updateMin]
              by_cases hname : decodeHtmlEntities key = name
              · simp [hname, minFold, obsFor]
              · simp [hname, minFold, obsFor]
            · simp [hpos, minFold, obsFor]
        · simp [hguard, minFold, obsFor]

theorem namedPrice_run_min : ∀ (lines : List (List Char)) (st : NamedPriceState)
    (name : List Char),
    mget ((lines.foldl processNamedPriceLine st).prices) name =
      minFold (mget st.prices name) (obsFor name (namedPriceObs st lines)) := by
  intro lines
  induction lines with
  | nil => intro st name; simp [namedPriceObs, minFold, obsFor]
  | cons l ls ih =>
    intro st name
    rw [List.foldl_cons, ih, namedPriceObs, obsFor_append, minFold_append,
      namedPriceLine_prices]

end NamedPriceLemmas

section MinFoldLemmas

theorem minFold_some_eq_foldl_min (ps : List Int) :
    ∀ m : Int, minFold (some m) ps = some (ps.foldl min m) := by
  induction ps with
  | nil => intro m; rfl
  | cons p rest ih =>
    intro m
    have hstep : (if p < m then some p else some m) = some (min m p) := by
      by_cases h : p < m
      · rw [if_pos h, min_eq_right (le_of_lt h)]
      · rw [if_neg h, min_eq_left (le_of_not_lt h)]
    unfold minFold at ih ⊢
    simp only [List.foldl_cons]
    rw [hstep]
    exact ih (min m p)

theorem minFold_none_eq_min? (ps : List Int) : minFold none ps = ps.min? := by
  cases ps with
  | nil => rfl
  | cons p rest =>
    have h := minFold_some_eq_foldl_min rest p
    unfold minFold at h ⊢
    simp only [List.foldl_cons]
    rw [h]
    rfl

end MinFoldLemmas

/-- C9: minimum-price policy of `parseNamedPriceDatabase`.  In general, the
price recorded for a display name is the minimum of all prices observed for
that name while scanning the table span (`namedPriceObs` lists the
`(decoded name, positive price)` observations exactly as the scanner
recognizes them, `minFold none = List.min?`); in particular, a table span in
which `"Frost Lotus"` occurs with price 500 in one realm and price 300 in
another yields 300 for that name. -/
theorem parseNamedPriceDatabase_min_policy :
    (∀ block name, mget (parseNamedPriceDatabase block) name =
        (obsFor name (namedPriceObs namedPriceInit (splitLines block))).min?) ∧
      mget (parseNamedPriceDatabase
          ("AUCTIONATOR_PRICE_DATABASE = \x7b\n[\x22Realm A\x22] = \x7b\n[\x22Frost Lotus\x22] = 500,\n\x7d,\n[\x22Realm B\x22] = \x7b\n[\x22Frost Lotus\x22] = 300,\n\x7d,\n\x7d").toList)
        "Frost Lotus".toList = some 300 := by
  constructor
  · intro block name
    unfold parseNamedPriceDatabase
    rw [namedPrice_run_min, ← minFold_none_eq_min?]
    rfl
  · decide

section ConvertLemmas

theorem foldl_maxKeyStep_eq_none (recs : List RawHistoryRecord) :
    ∀ acc, recs.foldl maxKeyStep acc = none → acc = none ∧ recs = [] := by
  induction recs with
  | nil => intro acc h; exact ⟨h, rfl⟩
  | cons r rest ih =>
    intro acc h
    rw [List.foldl_cons] at h
    have := (ih (maxKeyStep acc r) h).1
    exfalso
    unfold maxKeyStep at this
    cases acc with
    | none => simp at this
    | some m =>
      by_cases hm : m < r.key <;> simp [hm] at this

theorem computedMaxKey_eq_none (raw : List (Nat × List RawHistoryRecord)) :
    ∀ acc, raw.foldl (fun acc p => p.2.foldl maxKeyStep acc) acc = none →
      acc = none ∧ ∀ p ∈ raw, p.2 = [] := by
  induction raw with
  | nil => intro acc h; exact ⟨h, by simp⟩
  | cons p rest ih =>
    intro acc h
    rw [List.foldl_cons] at h
    obtain ⟨hmid, hrest⟩ := ih _ h
    obtain ⟨hacc, hp⟩ := foldl_maxKeyStep_eq_none p.2 acc hmid
    refine ⟨hacc, ?_⟩
    intro q hq
    rcases List.mem_cons.mp hq with rfl | hq
    · exact hp
    · exact hrest q hq

theorem computedMaxKey_isSome (raw : List (Nat × List RawHistoryRecord))
    (i : Nat) (records : List RawHistoryRecord) (rec : RawHistoryRecord)
    (hmem : (i, records) ∈ raw) (hrec : rec ∈ records) :
    ∃ M, computedMaxKey raw = some M := by
  cases hM : computedMaxKey raw with
  | some M => exact ⟨M, rfl⟩
  | none =>
    exfalso
    unfold computedMaxKey at hM
    have h2 := (computedMaxKey_eq_none raw none hM).2 (i, records) hmem
    simp only at h2
    rw [h2] at hrec
    simp at hrec

theorem mem_foldl_recStep (a : Int) (g : Option Nat) (s : List Char) :
    ∀ (recs : List RawHistoryRecord) (acc : List PriceHistoryEntry)
      (e : PriceHistoryEntry), e ∈ recs.foldl (recStep a g s) acc →
      e ∈ acc ∨ ∃ r ∈ recs, e = recEntry a g s r := by
  intro recs
  induction recs with
  | nil => intro acc e h; exact Or.inl h
  | cons r rest ih =>
    intro acc e h
    rw [List.foldl_cons] at h
    rcases ih _ e h with hacc | ⟨r', hr', he⟩
    · unfold recStep at hacc
      by_cases h1 : r.totalPrice ≤ 0
      · rw [if_pos h1] at hacc; exact Or.inl hacc
      · rw [if_neg h1] at hacc
        by_cases h2 : (recEntry a g s r).price ≤ 0
        · rw [if_pos h2] at hacc; exact Or.inl hacc
        · rw [if_neg h2] at hacc
          by_cases h3 : acc.any (fun x => x.price = (recEntry a g s r).price ∧
              x.importedAt = (recEntry a g s r).importedAt)
          · rw [if_pos h3] at hacc; exact Or.inl hacc
          · rw [if_neg h3] at hacc
            rcases List.mem_append.mp hacc with hacc | hacc
            · exact Or.inl hacc
            · exact Or.inr ⟨r, by simp, by simpa using hacc⟩
    · exact Or.inr ⟨r', by simp [hr'], he⟩

theorem mem_convertRecords (a : Int) (g : Option Nat) (s : List Char)
    (recs : List RawHistoryRecord) (e : PriceHistoryEntry)
    (h : e ∈ convertRecords a g s recs) : ∃ r ∈ recs, e = recEntry a g s r := by
  unfold convertRecords at h
  rcases mem_foldl_recStep a g s _ [] e h with hacc | ⟨r, hr, he⟩
  · simp at hacc
  · exact ⟨r, (mem_sortByKey _).mp hr, he⟩

theorem mget_foldl_convStep_of_not_mem (a : Int) (g : Option Nat) (s : List Char)
    (raw : List (Nat × List RawHistoryRecord)) :
    ∀ (r : HistMap) (i : Nat), (∀ p ∈ raw, p.1 ≠ i) →
      mget (raw.foldl (convStep a g s) r) i = mget r i := by
  induction raw with
  | nil => intro r i _; rfl
  | cons p rest ih =>
    intro r i h
    have hp : p.1 ≠ i := h p (by simp)
    have hstep : mget (convStep a g s r p) i = mget r i := by
      unfold convStep
      by_cases h1 : HISTORY_LIMIT <
          (sortByTime (convertRecords a g s p.2)).length
      · rw [if_pos h1, mget_mset, if_neg hp]
      · rw [if_neg h1]
        by_cases h2 : sortByTime (convertRecords a g s p.2) ≠ []
        · rw [if_pos h2, mget_mset, if_neg hp]
        · rw [if_neg h2]
    rw [List.foldl_cons, ih _ i (fun q hq => h q (by simp [hq])), hstep]

theorem mget_foldl_convStep (a : Int) (g : Option Nat) (s : List Char)
    (raw : List (Nat × List RawHistoryRecord)) :
    ∀ (r : HistMap) (i : Nat), NodupKeys raw →
      mget (raw.foldl (convStep a g s) r) i =
        match mget raw i with
        | none => mget r i
        | some records =>
          if HISTORY_LIMIT < (sortByTime (convertRecords a g s records)).length then
            some (sliceLast HISTORY_LIMIT (sortByTime (convertRecords a g s records)))
          else if sortByTime (convertRecords a g s records) ≠ [] then
            some (sortByTime (convertRecords a g s records))
          else mget r i := by
  induction raw with
  | nil => intro r i _; rfl
  | cons p rest ih =>
    intro r i hnd
    have hnd0 : p.1 ∉ rest.map Prod.fst ∧ (rest.map Prod.fst).Nodup := by
      have := hnd
      unfold NodupKeys at this
      simpa [List.nodup_cons] using this
    by_cases hpi : p.1 = i
    · have hgetinc : mget (p :: rest) i = some p.2 := by
        obtain ⟨x, y⟩ := p
        simp only at hpi
        simp [mget, hpi]
      have hrest : ∀ q ∈ rest, q.1 ≠ i := by
        intro q hq hqi
        exact hnd0.1 (by simpa [hpi, hqi] using List.mem_map_of_mem Prod.fst hq)
      rw [List.foldl_cons, mget_foldl_convStep_of_not_mem a g s rest _ i hrest, hgetinc]
      unfold convStep
      rw [hpi]
      by_cases h1 : HISTORY_LIMIT < (sortByTime (convertRecords a g s p.2)).length
      · rw [if_pos h1, mget_mset, if_pos rfl]
        simp [h1]
      · rw [if_neg h1]
        by_cases h2 : sortByTime (convertRecords a g s p.2) ≠ []
        · rw [if_pos h2, mget_mset, if_pos rfl]
          simp [h1, h2]
        · rw [if_neg h2]
          simp [h1, h2]
    · have hgetinc : mget (p :: rest) i = mget rest i := by
        obtain ⟨x, y⟩ := p
        simp only at hpi
        simp [mget, hpi]
      have hstep : mget (convStep a g s r p) i = mget r i := by
        unfold convStep
        by_cases h1 : HISTORY_LIMIT < (sortByTime (convertRecords a g s p.2)).length
        · rw [if_pos h1, mget_mset, if_neg hpi]
        · rw [if_neg h1]
          by_cases h2 : sortByTime (convertRecords a g s p.2) ≠ []
          · rw [if_pos h2, mget_mset, if_neg hpi]
          · rw [if_neg h2]
      rw [List.foldl_cons, ih _ i hnd0.2, hgetinc, hstep]

end ConvertLemmas

/-- C5 (counterexample): the reconstructed timestamp is clamped at the
epoch, not the claimed `anchor - (maxKey - key) * 60`.  With anchor `0`, max
time key `100` and a record at key `90`, the code stores timestamp `0`
(and, both records clamping to the same `(price, timestamp)`, even drops
the second record as a duplicate), while the claimed formula gives `-600`. -/
theorem convertRaw_timestamp_clamped :
    mget (convertRawHistoryToEntries [(1, [⟨90, 600, 1⟩, ⟨100, 600, 1⟩])]
        "s".toList 0 none) 1 = some [⟨600, 0, "s".toList⟩] ∧
      (0 : Int) ≠ 0 - ((100 : Int) - (90 : Int)) * 60 := by
  constructor
  · decide
  · decide

/-- C5 (amended): timestamp reconstruction with the epoch clamp.  Every
entry `convertRawHistoryToEntries` produces for an item comes from a raw
record of that item, and its timestamp is
`max(anchor - (maxKey - key) * 60, 0)` seconds where `maxKey` is the
maximum time key over the whole collection; its price is
`round(totalPrice / max(quantity, 1))`.  In particular, with max time-key
100, a record at key 90, unit 60 seconds and anchor `T ≥ 600`, the
reconstructed timestamp is exactly `T - 600` seconds. -/
theorem convertRaw_timestamp_formula :
    (∀ (raw : List (Nat × List RawHistoryRecord)) (source : List Char) (anchor : Int)
      (i : Nat) (l : List PriceHistoryEntry), NodupKeys raw →
      mget (convertRawHistoryToEntries raw source anchor none) i = some l →
      ∀ e ∈ l, ∃ M records rec, computedMaxKey raw = some M ∧
        mget raw i = some records ∧ rec ∈ records ∧
        e.importedAt = (max (anchor - ((M : Int) - (rec.key : Int)) * 60) 0).toNat ∧
        e.price = jsRound rec.totalPrice (max rec.quantity 1) ∧
        e.source = source) ∧
    (∀ T : Int, 600 ≤ T →
      mget (convertRawHistoryToEntries [(1, [⟨90, 600, 1⟩, ⟨100, 600, 1⟩])]
          "s".toList T none) 1
        = some [⟨600, (T - 600).toNat, "s".toList⟩, ⟨600, T.toNat, "s".toList⟩]) := by
  constructor
  · intro raw source anchor i l hnd hl e he
    have hchar := mget_foldl_convStep anchor (computedMaxKey raw) source raw [] i hnd
    have hl' : (match mget raw i with
        | none => mget ([] : HistMap) i
        | some records =>
          if HISTORY_LIMIT <
              (sortByTime (convertRecords anchor (computedMaxKey raw) source records)).length then
            some (sliceLast HISTORY_LIMIT
              (sortByTime (convertRecords anchor (computedMaxKey raw) source records)))
          else if sortByTime (convertRecords anchor (computedMaxKey raw) source records) ≠ [] then
            some (sortByTime (convertRecords anchor (computedMaxKey raw) source records))
          else mget ([] : HistMap) i) = some l := by
      rw [← hchar]
      exact hl
    cases hraw : mget raw i with
    | none =>
      rw [hraw] at hl'
      exact absurd hl' (by simp [mget])
    | some records =>
      rw [hraw] at hl'
      have hl'' : (if HISTORY_LIMIT <
              (sortByTime (convertRecords anchor (computedMaxKey raw) source records)).length then
            some (sliceLast HISTORY_LIMIT
              (sortByTime (convertRecords anchor (computedMaxKey raw) source records)))
          else if sortByTime (convertRecords anchor (computedMaxKey raw) source records) ≠ [] then
            some (sortByTime (convertRecords anchor (computedMaxKey raw) source records))
          else mget ([] : HistMap) i) = some l := hl'
      have hmem : e ∈ convertRecords anchor (computedMaxKey raw) source records := by
        by_cases h1 : HISTORY_LIMIT <
            (sortByTime (convertRecords anchor (computedMaxKey raw) source records)).length
        · rw [if_pos h1] at hl''
          obtain rfl := Option.some_injective _ hl''
          have hsub : e ∈ sortByTime (convertRecords anchor (computedMaxKey raw) source records) :=
            (sliceLast_suffix _ _).sublist.subset he
          exact (sortByTime_perm _).subset hsub
        · rw [if_neg h1] at hl''
          by_cases h2 : sortByTime (convertRecords anchor (computedMaxKey raw) source records) ≠ []
          · rw [if_pos h2] at hl''
            obtain rfl := Option.some_injective _ hl''
            exact (sortByTime_perm _).subset he
          · rw [if_neg h2] at hl''
            exact absurd hl'' (by simp [mget])
      obtain ⟨rec, hrec, herec⟩ := mem_convertRecords _ _ _ _ _ hmem
      obtain ⟨M, hM⟩ := computedMaxKey_isSome raw i records rec
        (mget_mem raw i records hraw) hrec
      refine ⟨M, records, rec, hM, rfl, hrec, ?_, ?_, ?_⟩
      · rw [herec, hM]
        rfl
      · rw [herec]
        rfl
      · rw [herec]
        rfl
  · intro T hT
    have hg : computedMaxKey [(1, [(⟨90, 600, 1⟩ : RawHistoryRecord), ⟨100, 600, 1⟩])]
        = some 100 := by decide
    have he90 : recEntry T (some 100) "s".toList ⟨90, 600, 1⟩
        = ⟨600, (T - 600).toNat, "s".toList⟩ := by
      show (⟨jsRound 600 (max 1 1),
        (max (T - (((100 : Nat) : Int) - ((90 : Nat) : Int)) * 60) 0).toNat,
        "s".toList⟩ : PriceHistoryEntry) = ⟨600, (T - 600).toNat, "s".toList⟩
      have hr : jsRound 600 (max 1 1) = 600 := by decide
      have hs : (((100 : Nat) : Int) - ((90 : Nat) : Int)) * 60 = 600 := by norm_num
      rw [hr, hs, max_eq_left (show (0 : Int) ≤ T - 600 from by omega)]
    have he100 : recEntry T (some 100) "s".toList ⟨100, 600, 1⟩
        = ⟨600, T.toNat, "s".toList⟩ := by
      show (⟨jsRound 600 (max 1 1),
        (max (T - (((100 : Nat) : Int) - ((100 : Nat) : Int)) * 60) 0).toNat,
        "s".toList⟩ : PriceHistoryEntry) = ⟨600, T.toNat, "s".toList⟩
      have hr : jsRound 600 (max 1 1) = 600 := by decide
      have hs : T - (((100 : Nat) : Int) - ((100 : Nat) : Int)) * 60 = T := by norm_num
      rw [hr, hs, max_eq_left (show (0 : Int) ≤ T from by omega)]
    have hconv : convertRecords T (some 100) "s".toList
        [⟨90, 600, 1⟩, ⟨100, 600, 1⟩]
        = [⟨600, (T - 600).toNat, "s".toList⟩, ⟨600, T.toNat, "s".toList⟩] := by
      unfold convertRecords
      have hsort : sortByKey (fun r : RawHistoryRecord => r.key)
          [⟨90, 600, 1⟩, ⟨100, 600, 1⟩] = [⟨90, 600, 1⟩, ⟨100, 600, 1⟩] := by decide
      rw [hsort]
      simp only [List.foldl_cons, List.foldl_nil]
      unfold recStep
      rw [he90, he100]
      have hne : ((T - 600).toNat : Nat) ≠ T.toNat := by omega
      simp [hne]
    have hsorted : sortByTime [(⟨600, (T - 600).toNat, "s".toList⟩ : PriceHistoryEntry),
        ⟨600, T.toNat, "s".toList⟩]
        = [⟨600, (T - 600).toNat, "s".toList⟩, ⟨600, T.toNat, "s".toList⟩] := by
      apply sortByTime_eq_self
      refine List.Pairwise.cons ?_ ?_
      · intro b hb
        rcases List.mem_cons.mp hb with rfl | hb
        · simp only []
          omega
        · simp at hb
      · simp [SortedByKey]
    have hfinal : convStep T (some 100) "s".toList []
        (1, [⟨90, 600, 1⟩, ⟨100, 600, 1⟩])
        = [(1, [⟨600, (T - 600).toNat, "s".toList⟩, ⟨600, T.toNat, "s".toList⟩])] := by
      unfold convStep
      simp only []
      rw [hconv, hsorted]
      have hlen : ¬ (HISTORY_LIMIT <
          ([(⟨600, (T - 600).toNat, "s".toList⟩ : PriceHistoryEntry),
            ⟨600, T.toNat, "s".toList⟩]).length) := by
        simp [HISTORY_LIMIT]
      rw [if_neg hlen, if_pos (by simp)]
      rfl
    show mget (convStep T (some 100) "s".toList []
        (1, [⟨90, 600, 1⟩, ⟨100, 600, 1⟩])) 1 = _
    rw [hfinal]
    simp [mget]

/-- C5 (witness for the amended theorem): the general part applied to a
one-record collection. -/
theorem convertRaw_timestamp_formula_witness :
    ∃ M records rec,
      computedMaxKey [(1, [(⟨90, 600, 1⟩ : RawHistoryRecord)])] = some M ∧
      mget [(1, [(⟨90, 600, 1⟩ : RawHistoryRecord)])] 1 = some records ∧
      rec ∈ records ∧
      (1000 : Nat) = (max ((1000 : Int) - ((M : Int) - (rec.key : Int)) * 60) 0).toNat ∧
      (600 : Int) = jsRound rec.totalPrice (max rec.quantity 1) ∧
      "s".toList = "s".toList := by
  have h := (convertRaw_timestamp_formula.1 [(1, [⟨90, 600, 1⟩])] "s".toList 1000 1
    [⟨600, 1000, "s".toList⟩] (by decide) (by decide)) ⟨600, 1000, "s".toList⟩ (by decide)
  obtain ⟨M, records, rec, h1, h2, h3, h4, h5, h6⟩ := h
  exact ⟨M, records, rec, h1, h2, h3, h4, h5, h6⟩

/-- C6 (counterexample): `mergePreferRecent` does not behave as claimed.
(1) When both `importedAt` values are unparseable, the result's metadata
comes from the second argument, not the first: two imports with invalid
timestamps and sources `"A"` / `"B"` merge to source `"B"`.  (2) The later
side is passed to `mergeHistories` as the incoming side, not as claimed the
other way around: with `a` (time 10) and `b` (time 20) holding entries of
equal timestamp and different prices for item 1, the code returns `a`'s
entry first — `mergeHistories(b, a)`, the claimed orientation, would return
`b`'s entry first. -/
theorem mergePreferRecent_claim_violated :
    ((AuctionatorDataService.mergePreferRecent
        (some ⟨[(1, [⟨10, 5, "A".toList⟩])], none, "A".toList⟩)
        (some ⟨[(1, [⟨20, 5, "B".toList⟩])], none, "B".toList⟩)).map
          (fun d => d.source) = some "B".toList ∧ "B".toList ≠ "A".toList) ∧
      ((AuctionatorDataService.mergePreferRecent
          (some ⟨[(1, [⟨1, 7, "A".toList⟩])], some 10, "A".toList⟩)
          (some ⟨[(1, [⟨2, 7, "B".toList⟩])], some 20, "B".toList⟩)).map
            (fun d => mget d.itemPrices 1)
          = some (some [⟨1, 7, "A".toList⟩, ⟨2, 7, "B".toList⟩]) ∧
        mget (mergeHistories [(1, [⟨2, 7, "B".toList⟩])]
            [(1, [⟨1, 7, "A".toList⟩])] HISTORY_LIMIT) 1
          = some [⟨2, 7, "B".toList⟩, ⟨1, 7, "A".toList⟩] ∧
        ([⟨1, 7, "A".toList⟩, ⟨2, 7, "B".toList⟩] :
            List PriceHistoryEntry) ≠ [⟨2, 7, "B".toList⟩, ⟨1, 7, "A".toList⟩]) := by
  refine ⟨⟨by decide, by decide⟩, by decide, by decide, by decide⟩

/-- C6 (amended): `mergePreferRecent a b` (both non-null) picks whichever of
`a.importedAt` / `b.importedAt` parses to the chronologically later time as
the primary source of the result's metadata (ties go to `b`); the merged
history is `mergeHistories` with the primary as the *incoming* side and the
other as existing; and when both timestamps are unparseable the *second*
argument is treated as primary (the result's `importedAt` and `source` come
from `b`). -/
theorem mergePreferRecent_primary (a b : AuctionatorParsedData) :
    AuctionatorDataService.mergePreferRecent (some a) (some b) =
      some ⟨mergeHistories (preferRecentOther a b).itemPrices
              (preferRecentPrimary a b).itemPrices HISTORY_LIMIT,
            (preferRecentPrimary a b).importedAt,
            (preferRecentPrimary a b).source⟩ := by
  unfold AuctionatorDataService.mergePreferRecent AuctionatorDataService.mergeWithExisting
  unfold preferRecentPrimary preferRecentOther
  cases ha : a.importedAt with
  | none =>
    cases hb : b.importedAt with
    | none => simp [ha, hb]
    | some tb => simp [ha, hb]
  | some ta =>
    cases hb : b.importedAt with
    | none => simp [ha, hb]
    | some tb =>
      by_cases hle : ta ≤ tb
      · simp [ha, hb, hle]
      · simp [ha, hb, hle]

section ResolverLemmas

theorem applyStores_append (c : CacheState) (l1 l2 : List (List Char × Nat)) :
    applyStores c (l1 ++ l2) = applyStores (applyStores c l1) l2 := by
  induction l1 generalizing c with
  | nil => rfl
  | cons p rest ih => rw [List.cons_append, applyStores, applyStores, ih]

theorem applyStores_preserves (name : List Char) (id : Nat) :
    ∀ (post : List (List Char × Nat)) (c : CacheState),
      (∀ p ∈ post, p.2 ≠ id ∧ normalizeItemName p.1 ≠ normalizeItemName name) →
      mget c.idToName id = some name →
      mget c.nameToId (normalizeItemName name) = some id →
      mget (applyStores c post).idToName id = some name ∧
        mget (applyStores c post).nameToId (normalizeItemName name) = some id := by
  intro post
  induction post with
  | nil => intro c _ h1 h2; exact ⟨h1, h2⟩
  | cons p rest ih =>
    intro c hcond h1 h2
    have hp := hcond p (by simp)
    rw [applyStores]
    refine ih _ (fun q hq => hcond q (by simp [hq])) ?_ ?_
    · unfold storeMapping
      by_cases hn : normalizeItemName p.1 = []
      · rw [if_pos hn]; exact h1
      · rw [if_neg hn]
        simp only []
        rw [mget_mset, if_neg hp.1]
        exact h1
    · unfold storeMapping
      by_cases hn : normalizeItemName p.1 = []
      · rw [if_pos hn]; exact h2
      · rw [if_neg hn]
        simp only []
        rw [mget_mset, if_neg hp.2]
        exact h2

end ResolverLemmas

/-- C7 (counterexample): the claimed invariant — every `(name, id)` pair
ever successfully stored satisfies `idToName[id] == name` and
`nameToId[normalize(name)] == id` — fails.  Storing `("A", 1)` and then
`("B", 1)` (both successful insertions, as `resolve` does when it stores the
search match's canonical name and the queried name under one id) leaves
`idToName[1] = "B"`, so the stored pair `("A", 1)` no longer satisfies
`idToName[1] == "A"`, while `nameToId["a"]` still maps to `1`. -/
theorem storeMapping_claim_violated :
    storeOk "A".toList ∧ storeOk "B".toList ∧
      mget (applyStores emptyCache [("A".toList, 1), ("B".toList, 1)]).idToName 1
        = some "B".toList ∧
      mget (applyStores emptyCache [("A".toList, 1), ("B".toList, 1)]).nameToId
          (normalizeItemName "A".toList) = some 1 ∧
      "B".toList ≠ "A".toList := by
  refine ⟨by decide, by decide, by decide, by decide, by decide⟩

/-- C7 (amended): after any sequence of successful `storeMapping` insertions
(as invoked by `resolve`, `resolveId` and `prime`), a stored pair
`(name, id)` satisfies `idToName[id] == name` and
`nameToId[normalize(name)] == id` provided no later insertion in the
sequence re-uses the same id or a name with the same normalized form — in
particular the most recent insertion always does.  (Pairs that are
superseded later can be left inconsistent, as the counterexample shows.) -/
theorem storeMapping_consistency (init : CacheState)
    (pre post : List (List Char × Nat)) (name : List Char) (id : Nat)
    (hok : storeOk name)
    (hpost : ∀ p ∈ post, p.2 ≠ id ∧ normalizeItemName p.1 ≠ normalizeItemName name) :
    mget (applyStores init (pre ++ (name, id) :: post)).idToName id = some name ∧
      mget (applyStores init (pre ++ (name, id) :: post)).nameToId
        (normalizeItemName name) = some id := by
  rw [applyStores_append]
  rw [show applyStores (applyStores init pre) ((name, id) :: post)
      = applyStores (storeMapping (applyStores init pre) name id) post from rfl]
  refine applyStores_preserves name id post _ hpost ?_ ?_
  · unfold storeMapping
    rw [if_neg hok]
    simp only []
    rw [mget_mset, if_pos rfl]
  · unfold storeMapping
    rw [if_neg hok]
    simp only []
    rw [mget_mset, if_pos rfl]

/-- C7 (witness for the amended theorem): store `("A", 1)` then `("C", 2)`;
the `("A", 1)` mappings survive. -/
theorem storeMapping_consistency_witness :
    mget (applyStores emptyCache ([] ++ ("A".toList, 1) :: [("C".toList, 2)])).idToName 1
        = some "A".toList ∧
      mget (applyStores emptyCache ([] ++ ("A".toList, 1) :: [("C".toList, 2)])).nameToId
        (normalizeItemName "A".toList) = some 1 :=
  storeMapping_consistency emptyCache [] [("C".toList, 2)] "A".toList 1 (by decide)
    (by decide)

section ToLowerLemmas

theorem char_ofNat_toNat (m : Nat) (h1 : 97 ≤ m) (h2 : m ≤ 122) :
    (Char.ofNat m).toNat = m := by
  unfold Char.ofNat
  split
  · simp [Char.ofNatAux, Char.toNat, UInt32.toNat, BitVec.toNat_ofNatLt]
  · exact absurd (Or.inl (by omega)) ‹¬ _›

theorem toLower_toNat_upper (c : Char) (h : 65 ≤ c.toNat ∧ c.toNat ≤ 90) :
    (Char.toLower c).toNat = c.toNat + 32 := by
  unfold Char.toLower
  rw [if_pos (by exact ⟨h.1, h.2⟩)]
  exact char_ofNat_toNat _ (by omega) (by omega)

theorem toLower_of_not_upper (c : Char) (h : ¬(65 ≤ c.toNat ∧ c.toNat ≤ 90)) :
    Char.toLower c = c := by
  unfold Char.toLower
  rw [if_neg (by simpa using h)]

theorem isWs_false_of_alpha (c : Char) (h1 : 65 ≤ c.toNat) (h2 : c.toNat ≤ 122) :
    isWs c = false := by
  simp only [isWs, Bool.or_eq_false_iff, decide_eq_false_iff_not, Bool.and_eq_false_iff]
  refine ⟨⟨⟨⟨⟨⟨⟨⟨⟨⟨⟨⟨⟨⟨?_, ?_⟩, ?_⟩, ?_⟩, ?_⟩, ?_⟩, ?_⟩, ?_⟩, ?_⟩, ?_⟩, ?_⟩, ?_⟩, ?_⟩, ?_⟩, ?_⟩ <;>
    omega

theorem toLower_idem (c : Char) : Char.toLower (Char.toLower c) = Char.toLower c := by
  by_cases h : 65 ≤ c.toNat ∧ c.toNat ≤ 90
  · have hl := toLower_toNat_upper c h
    exact toLower_of_not_upper _ (by omega)
  · rw [toLower_of_not_upper c h, toLower_of_not_upper c h]

theorem toLower_eq_bar (c : Char) (h : Char.toLower c = '|') : c = '|' := by
  by_cases hu : 65 ≤ c.toNat ∧ c.toNat ≤ 90
  · exfalso
    have hl := toLower_toNat_upper c hu
    rw [h] at hl
    have : ('|' : Char).toNat = 124 := by decide
    omega
  · rwa [toLower_of_not_upper c hu] at h

theorem isWs_toLower (c : Char) : isWs (Char.toLower c) = isWs c := by
  by_cases hu : 65 ≤ c.toNat ∧ c.toNat ≤ 90
  · have hl := toLower_toNat_upper c hu
    rw [isWs_false_of_alpha _ (by omega) (by omega),
      isWs_false_of_alpha c (by omega) (by omega)]
  · rw [toLower_of_not_upper c hu]

end ToLowerLemmas

section CollapseLemmas

theorem stripColorAux_no_bar : ∀ (fuel : Nat) (l : List Char),
    (∀ c ∈ l, c ≠ '|') → stripColorAux fuel l = l := by
  intro fuel
  induction fuel with
  | zero => intro l _; rfl
  | succ f ih =>
    intro l h
    cases l with
    | nil => rfl
    | cons c rest =>
      have hc : c ≠ '|' := h c (by simp)
      simp only [stripColorAux, if_neg hc]
      rw [ih rest (fun x hx => h x (by simp [hx]))]

theorem stripRAux_no_bar : ∀ (fuel : Nat) (l : List Char),
    (∀ c ∈ l, c ≠ '|') → stripRAux fuel l = l := by
  intro fuel
  induction fuel with
  | zero => intro l _; rfl
  | succ f ih =>
    intro l h
    cases l with
    | nil => rfl
    | cons c rest =>
      have hc : c ≠ '|' := h c (by simp)
      simp only [stripRAux, if_neg hc]
      rw [ih rest (fun x hx => h x (by simp [hx]))]

theorem mem_collapseWsAux : ∀ (l : List Char) (b : Bool) (c : Char),
    c ∈ collapseWsAux b l → c = ' ' ∨ c ∈ l := by
  intro l
  induction l with
  | nil => intro b c h; simp [collapseWsAux] at h
  | cons x rest ih =>
    intro b c h
    unfold collapseWsAux at h
    by_cases hx : isWs x
    · rw [if_pos hx] at h
      cases b with
      | true =>
        rcases ih true c h with h' | h'
        · exact Or.inl h'
        · exact Or.inr (by simp [h'])
      | false =>
        rcases List.mem_cons.mp h with rfl | h'
        · exact Or.inl rfl
        · rcases ih true c h' with h'' | h''
          · exact Or.inl h''
          · exact Or.inr (by simp [h''])
    · rw [if_neg hx] at h
      rcases List.mem_cons.mp h with rfl | h'
      · exact Or.inr (by simp)
      · rcases ih false c h' with h'' | h''
        · exact Or.inl h''
        · exact Or.inr (by simp [h''])

theorem collapse_props : ∀ l : List Char,
    (Collapsed (collapseWsAux false l)) ∧
      (Collapsed (collapseWsAux true l) ∧ HeadNotWs (collapseWsAux true l)) := by
  intro l
  induction l with
  | nil =>
    refine ⟨⟨by simp [collapseWsAux], by simp [collapseWsAux]⟩,
      ⟨by simp [collapseWsAux], by simp [collapseWsAux]⟩, ?_⟩
    intro x hx; simp [collapseWsAux] at hx
  | cons c rest ih =>
    obtain ⟨⟨hfmem, hfch⟩, ⟨htmem, htch⟩, hthead⟩ := ih
    by_cases hc : isWs c
    · have e1 : collapseWsAux false (c :: rest) = ' ' :: collapseWsAux true rest := by
        simp [collapseWsAux, hc]
      have e2 : collapseWsAux true (c :: rest) = collapseWsAux true rest := by
        simp [collapseWsAux, hc]
      refine ⟨⟨?_, ?_⟩, ⟨?_, ?_⟩, ?_⟩
      · intro x hx hwx
        rw [e1] at hx
        rcases List.mem_cons.mp hx with rfl | hx
        · rfl
        · exact htmem x hx hwx
      · rw [e1]
        apply List.chain'_cons'.mpr
        refine ⟨?_, htch⟩
        intro y hy hcontra
        have := hthead y hy
        rw [this] at hcontra
        exact absurd hcontra.2 (by simp)
      · rw [e2]; exact htmem
      · rw [e2]; exact htch
      · rw [e2]; exact hthead
    · have e1 : collapseWsAux false (c :: rest) = c :: collapseWsAux false rest := by
        simp [collapseWsAux, hc]
      have e2 : collapseWsAux true (c :: rest) = c :: collapseWsAux false rest := by
        simp [collapseWsAux, hc]
      have hmem : ∀ x ∈ c :: collapseWsAux false rest, isWs x = true → x = ' ' := by
        intro x hx hwx
        rcases List.mem_cons.mp hx with rfl | hx
        · exact absurd hwx (by simpa using hc)
        · exact hfmem x hx hwx
      have hch : (c :: collapseWsAux false rest).Chain'
          (fun a b => ¬(isWs a = true ∧ isWs b = true)) := by
        apply List.chain'_cons'.mpr
        refine ⟨?_, hfch⟩
        intro y _ hcontra
        exact hc (by simp [hcontra.1])
      refine ⟨⟨by rw [e1]; exact hmem, by rw [e1]; exact hch⟩,
        ⟨⟨by rw [e2]; exact hmem, by rw [e2]; exact hch⟩, ?_⟩⟩
      rw [e2]
      intro x hx
      obtain rfl : c = x := by simpa using hx
      simpa using hc

theorem collapse_eq_self : ∀ l : List Char, Collapsed l →
    ∀ b : Bool, (b = true → HeadNotWs l) → collapseWsAux b l = l := by
  intro l
  induction l with
  | nil => intro _ b _; cases b <;> rfl
  | cons c rest ih =>
    intro hcol b hb
    obtain ⟨hmem, hch⟩ := hcol
    have hrest : Collapsed rest :=
      ⟨fun x hx => hmem x (by simp [hx]), hch.tail⟩
    by_cases hc : isWs c
    · have hcs : c = ' ' := hmem c (by simp) hc
      cases b with
      | true =>
        exfalso
        have := hb rfl c rfl
        rw [this] at hc
        exact absurd hc (by simp)
      | false =>
        have e : collapseWsAux false (c :: rest) = ' ' :: collapseWsAux true rest := by
          simp [collapseWsAux, hc]
        rw [e, hcs]
        congr 1
        refine ih hrest true ?_
        intro _ x hx
        have hchain := List.chain'_cons'.mp hch
        by_contra hcontra
        exact hchain.1 x hx ⟨hc, by simpa using hcontra⟩
    · unfold collapseWsAux
      rw [if_neg hc]
      congr 1
      exact ih hrest false (by simp)

end CollapseLemmas

section TrimLemmas

theorem collapsed_suffix {l s : List Char} (h : Collapsed l) (hs : s <:+ l) :
    Collapsed s :=
  ⟨fun c hc hw => h.1 c (hs.subset hc) hw, h.2.suffix hs⟩

theorem collapsed_reverse {l : List Char} (h : Collapsed l) : Collapsed l.reverse := by
  refine ⟨fun c hc hw => h.1 c (List.mem_reverse.mp hc) hw, ?_⟩
  rw [List.chain'_reverse]
  exact h.2.imp (fun a b hab hcon => hab ⟨hcon.2, hcon.1⟩)

theorem collapsed_jsTrim {l : List Char} (h : Collapsed l) : Collapsed (jsTrim l) :=
  collapsed_reverse (collapsed_suffix (collapsed_reverse
    (collapsed_suffix h (List.dropWhile_suffix isWs))) (List.dropWhile_suffix isWs))

theorem headNotWs_dropWhile (l : List Char) : HeadNotWs (l.dropWhile isWs) := by
  intro x hx
  have h := List.head?_dropWhile_not isWs l
  rw [hx] at h
  exact h

theorem getLast?_dropWhile_eq {l : List Char} (p : Char → Bool)
    (h : l.dropWhile p ≠ []) : (l.dropWhile p).getLast? = l.getLast? := by
  obtain ⟨pre, hpre⟩ := List.dropWhile_suffix p (l := l)
  conv_rhs => rw [← hpre]
  rw [List.getLast?_append]
  cases he : (l.dropWhile p).getLast? with
  | none => exact absurd (List.getLast?_eq_none_iff.mp he) h
  | some x => rfl

theorem headNotWs_jsTrim (l : List Char) : HeadNotWs (jsTrim l) := by
  intro x hx
  unfold jsTrim at hx
  rw [List.head?_reverse] at hx
  have hne : ((l.dropWhile isWs).reverse.dropWhile isWs) ≠ [] := by
    intro hnil
    rw [hnil] at hx
    simp at hx
  rw [getLast?_dropWhile_eq isWs hne, List.getLast?_reverse] at hx
  exact headNotWs_dropWhile l x hx

theorem lastNotWs_jsTrim (l : List Char) : LastNotWs (jsTrim l) := by
  intro x hx
  unfold jsTrim at hx
  rw [List.getLast?_reverse] at hx
  exact headNotWs_dropWhile _ x hx

theorem dropWhile_eq_self_of_headNotWs : ∀ {l : List Char}, HeadNotWs l →
    l.dropWhile isWs = l := by
  intro l hh
  cases l with
  | nil => rfl
  | cons c rest =>
    have hc := hh c rfl
    simp [List.dropWhile_cons, hc]

theorem jsTrim_eq_self {l : List Char} (hh : HeadNotWs l) (hl : LastNotWs l) :
    jsTrim l = l := by
  have hrev : HeadNotWs l.reverse := by
    intro x hx
    rw [List.head?_reverse] at hx
    exact hl x hx
  unfold jsTrim
  rw [dropWhile_eq_self_of_headNotWs hh, dropWhile_eq_self_of_headNotWs hrev,
    List.reverse_reverse]

theorem collapsed_map_toLower {l : List Char} (h : Collapsed l) :
    Collapsed (l.map Char.toLower) := by
  refine ⟨?_, ?_⟩
  · intro c hc hw
    obtain ⟨x, hx, rfl⟩ := List.mem_map.mp hc
    rw [isWs_toLower] at hw
    rw [h.1 x hx hw]
    decide
  · rw [List.chain'_map]
    refine h.2.imp ?_
    intro a b hab hcon
    rw [isWs_toLower, isWs_toLower] at hcon
    exact hab hcon

theorem headNotWs_map_toLower {l : List Char} (h : HeadNotWs l) :
    HeadNotWs (l.map Char.toLower) := by
  intro x hx
  rw [List.head?_map] at hx
  obtain ⟨y, hy, hxy⟩ := Option.map_eq_some'.mp hx
  rw [← hxy, isWs_toLower]
  exact h y hy

theorem lastNotWs_map_toLower {l : List Char} (h : LastNotWs l) :
    LastNotWs (l.map Char.toLower) := by
  intro x hx
  rw [List.getLast?_map] at hx
  obtain ⟨y, hy, hxy⟩ := Option.map_eq_some'.mp hx
  rw [← hxy, isWs_toLower]
  exact h y hy

theorem jsTrim_subset (l : List Char) : jsTrim l ⊆ l := by
  intro c hc
  unfold jsTrim at hc
  rw [List.mem_reverse] at hc
  have hc2 := (List.dropWhile_suffix isWs).subset hc
  rw [List.mem_reverse] at hc2
  exact (List.dropWhile_suffix isWs).subset hc2

theorem map_toLower_idem (l : List Char) :
    (l.map Char.toLower).map Char.toLower = l.map Char.toLower := by
  rw [List.map_map]
  exact List.map_congr_left (fun x _ => toLower_idem x)

end TrimLemmas

/-- C8 (counterexample): `normalizeItemName` is not idempotent on all strings.
The single-pass `replace(/\|r/g, '')` can manufacture a fresh `|r` pair from
overlapping text: `"||rr"` normalizes to `"|r"`, which a second normalization
erases entirely. -/
theorem normalizeItemName_not_idempotent :
    ¬ (∀ l : List Char,
        normalizeItemName (normalizeItemName l) = normalizeItemName l) := by
  intro h
  exact absurd (h ('|' :: '|' :: 'r' :: 'r' :: [])) (by decide)

/-- C8 (amended): on every string that contains no `'|'` character — in
particular on every plain display name — `normalizeItemName` is idempotent:
stripping is the identity, the collapse pass leaves a collapsed string with
non-space ends after trimming, and lower-casing is idempotent character-wise. -/
theorem normalizeItemName_idem_of_no_bar (l : List Char) (h : '|' ∉ l) :
    normalizeItemName (normalizeItemName l) = normalizeItemName l := by
  have hnb : ∀ c ∈ l, c ≠ '|' := fun c hc hcb => h (hcb ▸ hc)
  have hs1 : stripColor l = l := stripColorAux_no_bar l.length l hnb
  have hs2 : stripRCodes l = l := stripRAux_no_bar l.length l hnb
  have hA : normalizeItemName l = (jsTrim (collapseWs l)).map Char.toLower := by
    unfold normalizeItemName
    rw [hs1, hs2]
  have hAnb : ∀ c ∈ normalizeItemName l, c ≠ '|' := by
    intro c hc hcb
    subst hcb
    rw [hA] at hc
    obtain ⟨y, hy, hxy⟩ := List.mem_map.mp hc
    have hyb : y = '|' := toLower_eq_bar y hxy
    subst hyb
    have h1 : ('|' : Char) ∈ collapseWs l := jsTrim_subset _ hy
    rcases mem_collapseWsAux l false '|' h1 with h2 | h2
    · exact absurd h2 (by decide)
    · exact h h2
  have hsA1 : stripColor (normalizeItemName l) = normalizeItemName l :=
    stripColorAux_no_bar _ _ hAnb
  have hsA2 : stripRCodes (normalizeItemName l) = normalizeItemName l :=
    stripRAux_no_bar _ _ hAnb
  have hcolA : Collapsed (normalizeItemName l) := by
    rw [hA]
    exact collapsed_map_toLower (collapsed_jsTrim (collapse_props l).1)
  have hheadA : HeadNotWs (normalizeItemName l) := by
    rw [hA]
    exact headNotWs_map_toLower (headNotWs_jsTrim (collapseWs l))
  have hlastA : LastNotWs (normalizeItemName l) := by
    rw [hA]
    exact lastNotWs_map_toLower (lastNotWs_jsTrim (collapseWs l))
  have hcoll : collapseWs (normalizeItemName l) = normalizeItemName l :=
    collapse_eq_self _ hcolA false (fun hf => absurd hf Bool.false_ne_true)
  have htrim : jsTrim (normalizeItemName l) = normalizeItemName l :=
    jsTrim_eq_self hheadA hlastA
  have hlow : (normalizeItemName l).map Char.toLower = normalizeItemName l := by
    rw [hA, map_toLower_idem]
  conv_lhs => rw [normalizeItemName, hsA1, hsA2, hcoll, htrim, hlow]

/-- C8 (witness for the amended theorem): a concrete bar-free name. -/
theorem normalizeItemName_idem_of_no_bar_witness :
    ('|' ∉ "  Frost   LOTUS ".toList) ∧
      normalizeItemName (normalizeItemName "  Frost   LOTUS ".toList)
        = normalizeItemName "  Frost   LOTUS ".toList :=
  ⟨by decide, normalizeItemName_idem_of_no_bar _ (by decide)⟩
